import Mathlib

/-!
Verification of the sketchy geometric kernel against its specification.

The repository carries two kernel variants:

* `SketchyKernel::WingedEdgeKernel` (src/src/core_kernel/winged_edge.cpp,
  second unit): id-based entities, Euler operators `mvsf`, `mev`, `mef`,
  `kef`, `kfmrh`, and the navigation queries `getIncidentEdges`,
  `getFaceBoundary`.  Modelled below in namespace `SketchyKernel`.
* `sketchy::kernel::Mesh` (first unit of winged_edge.cpp, face.cpp,
  vertex.cpp, include/sketchy/kernel/geometry.h): pointer-based records
  with `left_face` / `right_face` naming, `Mesh::add_face`,
  `Face::compute_normal`, `Vertex::get_incident_edges`,
  `Vec3::normalized`.  Modelled below in namespace `SketchyMesh`.

C++ heap objects are modelled as records held in per-kind stores keyed by a
numeric identity (the `id` field of the WingedEdgeKernel entities; an arena
index standing for the object address in the Mesh variant).  `shared_ptr`
fields become `Option Nat`.  The `vertices` / `edges` / `faces` vectors
become lists of identities (`vlive`, `elive`, `flive`); erasing from a
vector removes the identity from the live list while the record stays in
the store, exactly as a still-referenced `shared_ptr` object survives
`vector::erase`.  Dereferencing an identity absent from the store (which in
C++ would be a dangling raw pointer, i.e. undefined behaviour) yields a
fixed default record; the well-formedness predicate `Wf` used as a
hypothesis by the theorems rules that situation out.  Loops are written
with an explicit fuel parameter; a `none` result of a fuel-indexed loop
means the fuel was exhausted, which is the device used both to prove
termination (the result is `some _` once the fuel reaches the bound the
code's own guards enforce) and to exhibit divergence (the result is `none`
for every fuel).  Coordinates are modelled as rationals where only their
storage matters and as reals where `std::sqrt` is involved.
-/

namespace SketchyKernel

/-- 3D coordinates, `struct Point3D` of winged_edge.h. -/
structure Point3D where
  x : ℚ
  y : ℚ
  z : ℚ
deriving DecidableEq, Repr

/-- `struct Vertex` of winged_edge.h: id, coords, one incident edge. -/
structure VertexRec where
  id : Nat
  coords : Point3D
  edge : Option Nat
deriving DecidableEq, Repr

/-- `struct Edge` of winged_edge.h: id, endpoints, adjacent faces and the
four wing links `p1_f1`, `n1_f1`, `p2_f2`, `n2_f2`. -/
structure EdgeRec where
  id : Nat
  v1 : Option Nat
  v2 : Option Nat
  f1 : Option Nat
  f2 : Option Nat
  p1_f1 : Option Nat
  n1_f1 : Option Nat
  p2_f2 : Option Nat
  n2_f2 : Option Nat
deriving DecidableEq, Repr

/-- `struct Face` of winged_edge.h: id and one boundary edge. -/
structure FaceRec where
  id : Nat
  edge : Option Nat
deriving DecidableEq, Repr

/-- `class WingedEdgeKernel`: the three entity vectors (as lists of live
identities plus stores of all records ever created) and the id counters. -/
structure Kernel where
  vstore : List VertexRec
  estore : List EdgeRec
  fstore : List FaceRec
  vlive : List Nat
  elive : List Nat
  flive : List Nat
  next_v_id : Nat
  next_e_id : Nat
  next_f_id : Nat
deriving DecidableEq, Repr

/-- The empty kernel (default-constructed `WingedEdgeKernel`). -/
def emptyKernel : Kernel :=
  ⟨[], [], [], [], [], [], 1, 1, 1⟩

/-- Default record returned when a dangling identity is dereferenced
(undefined behaviour in the C++). -/
def vdefault : VertexRec := ⟨0, ⟨0, 0, 0⟩, none⟩

def edefault : EdgeRec := ⟨0, none, none, none, none, none, none, none, none⟩

def fdefault : FaceRec := ⟨0, none⟩

/-- Dereference a vertex identity. -/
def getV (s : Kernel) (i : Nat) : VertexRec :=
  (s.vstore.find? (fun r => r.id == i)).getD vdefault

/-- Dereference an edge identity. -/
def getE (s : Kernel) (i : Nat) : EdgeRec :=
  (s.estore.find? (fun r => r.id == i)).getD edefault

/-- Dereference a face identity. -/
def getF (s : Kernel) (i : Nat) : FaceRec :=
  (s.fstore.find? (fun r => r.id == i)).getD fdefault

/-- Mutate the vertex record with identity `i` in place. -/
def updV (s : Kernel) (i : Nat) (g : VertexRec → VertexRec) : Kernel :=
  { s with vstore := s.vstore.map (fun r => if r.id = i then g r else r) }

/-- Mutate the edge record with identity `i` in place. -/
def updE (s : Kernel) (i : Nat) (g : EdgeRec → EdgeRec) : Kernel :=
  { s with estore := s.estore.map (fun r => if r.id = i then g r else r) }

/-- Mutate the face record with identity `i` in place. -/
def updF (s : Kernel) (i : Nat) (g : FaceRec → FaceRec) : Kernel :=
  { s with fstore := s.fstore.map (fun r => if r.id = i then g r else r) }

/-- The kernel's failure surface: the `std::invalid_argument` exceptions
thrown by the operators. -/
inductive KErr where
  | invalidArg : String → KErr
deriving DecidableEq, Repr

/-- `WingedEdgeKernel::mvsf`: create one vertex and one face, no edges. -/
def mvsf (s : Kernel) (p : Point3D) : Nat × Kernel :=
  let vid := s.next_v_id
  let fid := s.next_f_id
  (vid,
    { s with
      vstore := s.vstore ++ [⟨vid, p, none⟩]
      vlive := s.vlive ++ [vid]
      next_v_id := vid + 1
      fstore := s.fstore ++ [⟨fid, none⟩]
      flive := s.flive ++ [fid]
      next_f_id := fid + 1 })

/-- The creation phase of `WingedEdgeKernel::mev`: push the new vertex `w`
at `p` and the new edge `(u, w)` whose face slots both point at `f`. -/
def mevPush (s : Kernel) (u : Nat) (p : Point3D) (f : Nat) : Kernel :=
  { s with
    vstore := s.vstore ++ [⟨s.next_v_id, p, none⟩]
    vlive := s.vlive ++ [s.next_v_id]
    next_v_id := s.next_v_id + 1
    estore := s.estore ++
      [⟨s.next_e_id, some u, some s.next_v_id, some f, some f, none, none, none, none⟩]
    elive := s.elive ++ [s.next_e_id]
    next_e_id := s.next_e_id + 1 }

/-- `if (!from_vertex->edge) from_vertex->edge = new_edge` of `mev`. -/
def mevRefsU (s : Kernel) (u eid : Nat) : Kernel :=
  if (getV s u).edge = none then updV s u (fun r => { r with edge := some eid }) else s

/-- `if (!on_face->edge) on_face->edge = new_edge` of `mev`. -/
def mevRefsF (s : Kernel) (f eid : Nat) : Kernel :=
  if (getF s f).edge = none then updF s f (fun r => { r with edge := some eid }) else s

/-- The reference-update phase of `mev`: set `u->edge` if unset, set
`w->edge`, set `f->edge` if unset. -/
def mevRefs (s : Kernel) (u wid eid f : Nat) : Kernel :=
  mevRefsF (updV (mevRefsU s u eid) wid (fun r => { r with edge := some eid })) f eid

/-- The first wing write of the splice branch of `mev`. -/
def mevWireA (s : Kernel) (pe eid : Nat) : Kernel :=
  updE s eid (fun r => { r with p1_f1 := some pe, n1_f1 := (getE s pe).n1_f1 })

/-- The previous-edge wing write of the splice branch of `mev`. -/
def mevWireB (s : Kernel) (u pe eid : Nat) : Kernel :=
  if (getE s pe).v2 = some u then updE s pe (fun r => { r with n2_f2 := some eid })
  else updE s pe (fun r => { r with n1_f1 := some eid })

/-- The wing-wiring phase of `mev`: self-loops when the new edge is `u`'s
first, else splice after `u`'s current edge. -/
def mevWire (s : Kernel) (u eid : Nat) : Kernel :=
  if (getV s u).edge = some eid then
    updE s eid (fun r =>
      { r with p1_f1 := some eid, n1_f1 := some eid, p2_f2 := some eid, n2_f2 := some eid })
  else
    match (getV s u).edge with
    | none => s   -- unreachable: the previous branch covers a null u->edge
    | some pe =>
      updE (mevWireB (mevWireA s pe eid) u pe eid) eid
        (fun r => { r with p2_f2 := some eid, n2_f2 := some eid })

/-- `WingedEdgeKernel::mev`: create one vertex `w` at `p` and one edge
`(u, w)` with both face slots pointing at `on_face`, then wire the wings as
the source does. -/
def mev (s : Kernel) (u? : Option Nat) (p : Point3D) (f? : Option Nat) :
    Except KErr (Nat × Kernel) :=
  match u?, f? with
  | none, _ => .error (.invalidArg "MEV: from_vertex cannot be null")
  | some _, none => .error (.invalidArg "MEV: on_face cannot be null")
  | some u, some f =>
    .ok (s.next_e_id, mevWire (mevRefs (mevPush s u p f) u s.next_v_id s.next_e_id f) u s.next_e_id)

/-- The creation phase of `WingedEdgeKernel::mef`: push the new edge with
`f1` the argument face and `f2` the new face, and push the new face whose
boundary edge is the new edge. -/
def mefPush (s : Kernel) (a b f : Nat) : Kernel :=
  { s with
    estore := s.estore ++
      [⟨s.next_e_id, some a, some b, some f, some s.next_f_id, none, none, none, none⟩]
    elive := s.elive ++ [s.next_e_id]
    next_e_id := s.next_e_id + 1
    fstore := s.fstore ++ [⟨s.next_f_id, some s.next_e_id⟩]
    flive := s.flive ++ [s.next_f_id]
    next_f_id := s.next_f_id + 1 }

/-- The `v1->edge` wing write of `mef`. -/
def mefWire1 (s : Kernel) (a eid : Nat) : Kernel :=
  match (getV s a).edge with
  | some v1e => updE s eid (fun r => { r with p1_f1 := some v1e, n1_f1 := some v1e })
  | none => s

/-- The wing-wiring phase of `mef`: point the new edge's wings at
`v1->edge` and `v2->edge` when those are set.  (This is all the wiring the
source performs: no pre-existing edge is modified.) -/
def mefWire (s : Kernel) (a b eid : Nat) : Kernel :=
  match (getV (mefWire1 s a eid) b).edge with
  | some v2e =>
    updE (mefWire1 s a eid) eid (fun r => { r with p2_f2 := some v2e, n2_f2 := some v2e })
  | none => mefWire1 s a eid

/-- `WingedEdgeKernel::mef`: create one edge `(v1, v2)` and one face; the
new edge's `f1` is the argument face, its `f2` the new face; the only wing
wiring performed by the source is pointing the new edge's wings at
`v1->edge` and `v2->edge`. -/
def mef (s : Kernel) (a? b? f? : Option Nat) : Except KErr (Nat × Kernel) :=
  match a?, b?, f? with
  | some a, some b, some f =>
    if a = b then .error (.invalidArg "MEF: cannot create edge between same vertex")
    else .ok (s.next_e_id, mefWire (mefPush s a b f) a b s.next_e_id)
  | _, _, _ => .error (.invalidArg "MEF: vertices and face cannot be null")

/-- The face-slot rewrite `kef` applies to every surviving edge: slots that
referenced the merged-away face are redirected to the survivor. -/
def kefRewrite (f1v f2v : Nat) (r : EdgeRec) : EdgeRec :=
  { r with
    f1 := if r.f1 = some f2v then some f1v else r.f1
    f2 := if r.f2 = some f2v then some f1v else r.f2 }

/-- `WingedEdgeKernel::kef`: erase the edge, redirect every remaining live
edge's face slots from `e->f2` to `e->f1`, erase `e->f2` from the face
vector, return `e->f1`. -/
def kef (s : Kernel) (e? : Option Nat) : Except KErr (Nat × Kernel) :=
  match e? with
  | none => .error (.invalidArg "KEF: edge cannot be null")
  | some e =>
    match (getE s e).f1, (getE s e).f2 with
    | some f1v, some f2v =>
      let elive' := s.elive.filter (fun x => x ≠ e)
      let estore' := s.estore.map (fun er =>
        if er.id ≠ e ∧ er.id ∈ s.elive then kefRewrite f1v f2v er else er)
      let flive' := s.flive.filter (fun x => x ≠ f2v)
      .ok (f1v, { s with elive := elive', estore := estore', flive := flive' })
    | _, _ => .error (.invalidArg "KEF: edge must be adjacent to two faces")

/-- `WingedEdgeKernel::kfmrh`: erase the hole face, redirect the face slots
of the edges on its boundary to the outer face. -/
def kfmrhBoundaryRewrite (holeF outerF : Nat) (r : EdgeRec) : EdgeRec :=
  { r with
    f1 := if r.f1 = some holeF then some outerF else r.f1
    f2 := if r.f2 = some holeF then some outerF else r.f2 }

/-- The loop body of `WingedEdgeKernel::getFaceBoundary`, with an explicit
fuel parameter.  `acc` holds, newest first, the edges pushed so far; the
C++ `visited` set receives exactly the pushed identities, so `acc` also
plays its role.  A `none` result means the fuel ran out before the loop
finished (which the wrapper's fuel choice precludes, see
`fbLoop_no_fuel_exhaustion`). -/
def fbLoop (s : Kernel) (f start : Nat) : Nat → List Nat → Nat → Option (List Nat)
  | 0, _, _ => none
  | fuel + 1, acc, cur =>
    if cur ∈ acc then some acc.reverse
    else
      let acc' := cur :: acc
      let r := getE s cur
      match (if r.f1 = some f then some r.n1_f1
             else if r.f2 = some f then some r.n2_f2
             else none) with
      | none => some acc'.reverse
      | some none => some acc'.reverse
      | some (some nxt) =>
        if s.elive.length < acc'.length then some acc'.reverse
        else if nxt = start then some acc'.reverse
        else fbLoop s f start fuel acc' nxt

/-- `WingedEdgeKernel::getFaceBoundary`: walk the boundary starting at the
face's `edge` handle, following `n1_f1` on the `f1` side and `n2_f2` on the
`f2` side, stopping on revisit, side mismatch, null link, overlong walk or
return to the start. -/
def getFaceBoundary (s : Kernel) (f? : Option Nat) : List Nat :=
  match f? with
  | none => []
  | some f =>
    match (getF s f).edge with
    | none => []
    | some e0 => (fbLoop s f e0 (s.elive.length + 2) [] e0).getD []

/-- The loop body of `WingedEdgeKernel::getIncidentEdges`, fuel-indexed the
same way as `fbLoop`. -/
def wkIncLoop (s : Kernel) (v start : Nat) : Nat → List Nat → Nat → Option (List Nat)
  | 0, _, _ => none
  | fuel + 1, acc, cur =>
    if cur ∈ acc then some acc.reverse
    else
      let acc' := cur :: acc
      let r := getE s cur
      match (if r.v1 = some v then some r.n1_f1
             else if r.v2 = some v then some r.n2_f2
             else none) with
      | none => some acc'.reverse
      | some none => some acc'.reverse
      | some (some nxt) =>
        if s.elive.length < acc'.length then some acc'.reverse
        else if nxt = start then some acc'.reverse
        else wkIncLoop s v start fuel acc' nxt

/-- `WingedEdgeKernel::getIncidentEdges`: walk the edges around `v`
starting at `v->edge`, following `n1_f1` when `v` is the edge's `v1` and
`n2_f2` when it is its `v2`. -/
def getIncidentEdges (s : Kernel) (v? : Option Nat) : List Nat :=
  match v? with
  | none => []
  | some v =>
    match (getV s v).edge with
    | none => []
    | some e0 => (wkIncLoop s v e0 (s.elive.length + 2) [] e0).getD []

/-- An edge's face slot references `f` (the condition under which the
boundary walk keeps going from that edge). -/
def edgeRefsFace (s : Kernel) (x f : Nat) : Prop :=
  (getE s x).f1 = some f ∨ (getE s x).f2 = some f

instance (s : Kernel) (x f : Nat) : Decidable (edgeRefsFace s x f) := by
  unfold edgeRefsFace; infer_instance

/-- The number of face slots of live edges referencing `f`, a spur (both
slots on `f`) counting twice. -/
def slotRefCount (s : Kernel) (f : Nat) : Nat :=
  (s.elive.map (fun x =>
    (if (getE s x).f1 = some f then 1 else 0) +
    (if (getE s x).f2 = some f then 1 else 0))).sum

/-- Well-formedness of a kernel state: identities are unique per kind and
below the id counters, live lists are duplicate-free subsets of the stores,
and every cross-reference stored in a record is below the counter of the
kind it points at.  Every state reachable from `emptyKernel` through the
operators satisfies this; concrete witnesses discharge it by `decide`. -/
def Wf (s : Kernel) : Prop :=
  (∀ r ∈ s.vstore, r.id < s.next_v_id) ∧
  (∀ r ∈ s.estore, r.id < s.next_e_id) ∧
  (∀ r ∈ s.fstore, r.id < s.next_f_id) ∧
  (s.vstore.map VertexRec.id).Nodup ∧
  (s.estore.map EdgeRec.id).Nodup ∧
  (s.fstore.map FaceRec.id).Nodup ∧
  s.vlive.Nodup ∧ s.elive.Nodup ∧ s.flive.Nodup ∧
  (∀ i ∈ s.vlive, ∃ r ∈ s.vstore, r.id = i) ∧
  (∀ i ∈ s.elive, ∃ r ∈ s.estore, r.id = i) ∧
  (∀ i ∈ s.flive, ∃ r ∈ s.fstore, r.id = i) ∧
  (∀ r ∈ s.estore, (∀ x ∈ r.f1, x < s.next_f_id) ∧ (∀ x ∈ r.f2, x < s.next_f_id)) ∧
  (∀ r ∈ s.vstore, ∀ x ∈ r.edge, x < s.next_e_id)

instance (s : Kernel) : Decidable (Wf s) := by
  unfold Wf; infer_instance

/-- The kernel payload of a successful operator call. -/
def okState (x : Except KErr (Nat × Kernel)) : Option Kernel :=
  match x with
  | .ok (_, s) => some s
  | .error _ => none

/-- The handle payload of a successful operator call. -/
def okVal (x : Except KErr (Nat × Kernel)) : Option Nat :=
  match x with
  | .ok (v, _) => some v
  | .error _ => none

end SketchyKernel

namespace SketchyMesh

/-- `class Vec3` of geometry.h, restricted to the operations whose exact
value the claims depend on.  Stored coordinates are modelled as rationals
(the doubles the mesh stores are exact on the inputs considered); the
square root taken by `Vec3::length` lives on the real-valued mirror
`RVec3` below. -/
structure Vec3 where
  x : ℚ
  y : ℚ
  z : ℚ
deriving DecidableEq, Repr

/-- Real-valued 3-vector on which `Vec3::length` / `Vec3::normalized` are
modelled (idealising IEEE-754 doubles as reals). -/
structure RVec3 where
  x : ℝ
  y : ℝ
  z : ℝ

/-- Inclusion of stored (rational) coordinates into the real model. -/
def toR (v : Vec3) : RVec3 :=
  ⟨(v.x : ℝ), (v.y : ℝ), (v.z : ℝ)⟩

/-- `Vec3::length`: `std::sqrt(x*x + y*y + z*z)`. -/
noncomputable def RVec3.length (v : RVec3) : ℝ :=
  Real.sqrt (v.x * v.x + v.y * v.y + v.z * v.z)

/-- `Vec3::normalized`: divide by the length when it is positive, else
return the zero vector. -/
noncomputable def RVec3.normalized (v : RVec3) : RVec3 :=
  if 0 < v.length then ⟨v.x / v.length, v.y / v.length, v.z / v.length⟩
  else ⟨0, 0, 0⟩

/-- `struct Vertex` of the Mesh variant: position and one incident edge.
The `id` is the arena index standing for the object's address. -/
structure MVertexRec where
  id : Nat
  position : Vec3
  edge : Option Nat
deriving DecidableEq, Repr

/-- `struct Edge` of the Mesh variant: two (non-null) endpoint vertices,
two optional faces and the four wing links with `left` / `right` naming. -/
structure MEdgeRec where
  id : Nat
  v1 : Nat
  v2 : Nat
  left_face : Option Nat
  right_face : Option Nat
  left_prev : Option Nat
  left_next : Option Nat
  right_prev : Option Nat
  right_next : Option Nat
deriving DecidableEq, Repr

/-- `struct Face` of the Mesh variant: one boundary edge.  The cached
normal the C++ stores is derived state, recomputed by `compute_normal`
below whenever needed, so it is not part of the record. -/
structure MFaceRec where
  id : Nat
  edge : Option Nat
deriving DecidableEq, Repr

/-- `class Mesh`: the three entity vectors and their arena stores. -/
structure Mesh where
  vstore : List MVertexRec
  estore : List MEdgeRec
  fstore : List MFaceRec
  vlive : List Nat
  elive : List Nat
  flive : List Nat
  nv : Nat
  ne : Nat
  nf : Nat
deriving DecidableEq, Repr

def emptyMesh : Mesh := ⟨[], [], [], [], [], [], 1, 1, 1⟩

def mvdefault : MVertexRec := ⟨0, ⟨0, 0, 0⟩, none⟩

def medefault : MEdgeRec := ⟨0, 0, 0, none, none, none, none, none, none⟩

def mfdefault : MFaceRec := ⟨0, none⟩

def getMV (m : Mesh) (i : Nat) : MVertexRec :=
  (m.vstore.find? (fun r => r.id == i)).getD mvdefault

def getME (m : Mesh) (i : Nat) : MEdgeRec :=
  (m.estore.find? (fun r => r.id == i)).getD medefault

def getMF (m : Mesh) (i : Nat) : MFaceRec :=
  (m.fstore.find? (fun r => r.id == i)).getD mfdefault

def updMV (m : Mesh) (i : Nat) (g : MVertexRec → MVertexRec) : Mesh :=
  { m with vstore := m.vstore.map (fun r => if r.id = i then g r else r) }

def updME (m : Mesh) (i : Nat) (g : MEdgeRec → MEdgeRec) : Mesh :=
  { m with estore := m.estore.map (fun r => if r.id = i then g r else r) }

/-- `Mesh::add_vertex`. -/
def add_vertex (m : Mesh) (p : Vec3) : Nat × Mesh :=
  let vid := m.nv
  (vid, { m with vstore := m.vstore ++ [⟨vid, p, none⟩], vlive := m.vlive ++ [vid], nv := vid + 1 })

/-- The push half of `Mesh::add_edge`: append a fresh edge record joining
`a` and `b` with all faces and wings null. -/
def addEdgePush (m : Mesh) (a b : Nat) : Mesh :=
  { m with
    estore := m.estore ++ [⟨m.ne, a, b, none, none, none, none, none, none⟩]
    elive := m.elive ++ [m.ne]
    ne := m.ne + 1 }

/-- `if (!v->edge) v->edge = new_edge;` inside `Mesh::add_edge`. -/
def addEdgeU (m : Mesh) (v eid : Nat) : Mesh :=
  if (getMV m v).edge = none then updMV m v (fun r => { r with edge := some eid }) else m

/-- `Mesh::add_edge`: reject identical endpoints, push a fresh edge, set
each endpoint's incident-edge reference if it was unset.  (The C++ null
checks have no counterpart: vertex handles are plain identities here.) -/
def add_edge (m : Mesh) (a b : Nat) : Except SketchyKernel.KErr (Nat × Mesh) :=
  if a = b then .error (.invalidArg "Cannot create edge with same start and end vertex")
  else
    .ok (m.ne, addEdgeU (addEdgeU (addEdgePush m a b) a m.ne) b m.ne)

/-- The existing-edge lookup inside `Mesh::add_face`: the first live edge
joining `a` and `b`, in either endpoint order. -/
def findEdgeFor (m : Mesh) (a b : Nat) : Option Nat :=
  m.elive.find? (fun x =>
    let r := getME m x
    (r.v1 == a && r.v2 == b) || (r.v1 == b && r.v2 == a))

/-- Every live edge id predates the edge arena counter.  This holds of
every mesh built through `add_vertex` / `add_edge` / `add_face` and is
what makes the first-match edge search stable under later pushes. -/
def EliveLtNe (m : Mesh) : Prop := ∀ x ∈ m.elive, x < m.ne

instance (m : Mesh) : Decidable (EliveLtNe m) :=
  List.decidableBAll (fun x => x < m.ne) m.elive

/-- The first loop of `Mesh::add_face`: for each consecutive vertex pair,
reuse the first matching live edge or create one. -/
def collectGo : Mesh → List (Nat × Nat) → List Nat → Except SketchyKernel.KErr (List Nat × Mesh)
  | m, [], acc => .ok (acc.reverse, m)
  | m, (a, b) :: rest, acc =>
    match findEdgeFor m a b with
    | some e => collectGo m rest (e :: acc)
    | none =>
      match add_edge m a b with
      | .error err => .error err
      | .ok (e, m') => collectGo m' rest (e :: acc)

/-- The consecutive vertex pairs `(verts[i], verts[(i+1) % n])` of a face
listing. -/
def cyclePairs (verts : List Nat) : List (Nat × Nat) :=
  verts.zip (verts.rotate 1)

def collectFaceEdges (m : Mesh) (verts : List Nat) : Except SketchyKernel.KErr (List Nat × Mesh) :=
  collectGo m (cyclePairs verts) []

/-- One iteration of the wiring loop of `Mesh::add_face`: record the new
face in the left slot of `current` when that slot is free, else in its
right slot, together with the corresponding prev/next wings. -/
def wireStep (fid : Nat) (ces : List Nat) (mm : Mesh) (i : Nat) : Mesh :=
  if (getME mm (ces.getD i 0)).left_face = none then
    updME mm (ces.getD i 0) (fun r =>
      { r with left_face := some fid,
               left_next := some (ces.getD ((i + 1) % ces.length) 0),
               left_prev := some (ces.getD ((i + ces.length - 1) % ces.length) 0) })
  else
    updME mm (ces.getD i 0) (fun r =>
      { r with right_face := some fid,
               right_next := some (ces.getD ((i + 1) % ces.length) 0),
               right_prev := some (ces.getD ((i + ces.length - 1) % ces.length) 0) })

/-- The wiring loop of `Mesh::add_face`. -/
def wireFace (m : Mesh) (fid : Nat) (ces : List Nat) : Mesh :=
  (List.range ces.length).foldl (wireStep fid ces) m

/-- The face-creation push inside `Mesh::add_face`: append a fresh face
record whose boundary pointer is the first collected edge. -/
def facePush (m1 : Mesh) (ces : List Nat) : Mesh :=
  { m1 with
    fstore := m1.fstore ++ [⟨m1.nf, some (ces.getD 0 0)⟩]
    flive := m1.flive ++ [m1.nf]
    nf := m1.nf + 1 }

/-- `Mesh::add_face`: reject fewer than three vertices, collect (reusing or
creating) the boundary edges, create the face on the first of them, wire
the winged-edge slots, and (in the C++) cache the face normal — here the
normal is recomputed on demand by `compute_normal`. -/
def add_face (m : Mesh) (verts : List Nat) : Except SketchyKernel.KErr (Nat × Mesh) :=
  if verts.length < 3 then .error (.invalidArg "Face must have at least 3 vertices")
  else
    match collectFaceEdges m verts with
    | .error e => .error e
    | .ok (ces, m1) => .ok (m1.nf, wireFace (facePush m1 ces) m1.nf ces)

/-- The loop of `Face::get_boundary_edges`: push, step along the link whose
face matches, stop on mismatch, a result longer than 1000 edges, a null
link or return to the start.  (This walk has no visited set.) -/
def mbLoop (m : Mesh) (f start : Nat) : Nat → List Nat → Nat → Option (List Nat)
  | 0, _, _ => none
  | fuel + 1, acc, cur =>
    let acc' := cur :: acc
    let r := getME m cur
    match (if r.left_face = some f then some r.left_next
           else if r.right_face = some f then some r.right_next
           else none) with
    | none => some acc'.reverse
    | some nxtOpt =>
      if 1000 < acc'.length then some acc'.reverse
      else
        match nxtOpt with
        | none => some acc'.reverse
        | some nxt => if nxt = start then some acc'.reverse else mbLoop m f start fuel acc' nxt

/-- `Face::get_boundary_edges`.  The loop's own 1000-element cap bounds it
by 1001 iterations, so the fuel 1002 is never exhausted. -/
def get_boundary_edges (m : Mesh) (f : Nat) : List Nat :=
  match (getMF m f).edge with
  | none => []
  | some e0 => (mbLoop m f e0 1002 [] e0).getD []

/-- `Face::get_vertices`: for each boundary edge, its `v1` when the face is
on the edge's left side, else its `v2`. -/
def get_vertices (m : Mesh) (f : Nat) : List Nat :=
  (get_boundary_edges m f).map (fun e =>
    let r := getME m e
    if r.left_face = some f then r.v1 else r.v2)

/-- The positions of a face's boundary vertices, in walk order. -/
def facePositions (m : Mesh) (f : Nat) : List Vec3 :=
  (get_vertices m f).map (fun v => (getMV m v).position)

/-- Newell's method as in `Face::compute_normal`: the accumulated sums over
consecutive cyclic position pairs. -/
def newell (ps : List RVec3) : RVec3 :=
  ⟨((ps.zip (ps.rotate 1)).map (fun ab => (ab.1.y - ab.2.y) * (ab.1.z + ab.2.z))).sum,
   ((ps.zip (ps.rotate 1)).map (fun ab => (ab.1.z - ab.2.z) * (ab.1.x + ab.2.x))).sum,
   ((ps.zip (ps.rotate 1)).map (fun ab => (ab.1.x - ab.2.x) * (ab.1.y + ab.2.y))).sum⟩

/-- `Face::compute_normal`: the default `(0,0,1)` when the boundary walk
yields fewer than three vertices, else the normalized Newell vector.  This
is the value the C++ caches in `Face::normal`. -/
noncomputable def compute_normal (m : Mesh) (f : Nat) : RVec3 :=
  let ps := facePositions m f
  if ps.length < 3 then ⟨0, 0, 1⟩
  else (newell (ps.map toR)).normalized

/-- Twice the signed area of a polygon whose vertices are listed in the XY
plane: the cyclic shoelace sum, on the stored rational coordinates. -/
def shoelace (ps : List Vec3) : ℚ :=
  ((ps.zip (ps.rotate 1)).map (fun ab => ab.1.x * ab.2.y - ab.2.x * ab.1.y)).sum

/-- The inner navigation loop of `Vertex::get_incident_edges` (vertex.cpp):
advance along wing links until an edge incident to `v` (or a null link) is
found.  The C++ loop has no bound, so the fuel here is genuine: a `none`
result for every fuel is a diverging execution.  `b1` records which outer
branch entered the loop (the `v1 == this` one or the `v2 == this` one). -/
def miInner (m : Mesh) (v : Nat) (b1 : Bool) : Nat → Option Nat → Option (Option Nat)
  | 0, _ => none
  | _ + 1, none => some none
  | fuel + 1, some c =>
    let r := getME m c
    if b1 then
      if r.v2 ≠ v ∧ r.v1 ≠ v then
        miInner m v b1 fuel (if r.v1 = v then r.right_next else r.left_next)
      else some (some c)
    else
      if r.v1 ≠ v ∧ r.v2 ≠ v then
        miInner m v b1 fuel (if r.v2 = v then r.left_next else r.right_next)
      else some (some c)

/-- The outer loop of `Vertex::get_incident_edges`: push the current edge,
navigate around the vertex (via `miInner`), stop after 1000 pushes, on a
null edge or on return to the start. -/
def miOuter (m : Mesh) (v start : Nat) : Nat → List Nat → Nat → Option (List Nat)
  | 0, _, _ => none
  | fuel + 1, acc, cur =>
    let acc' := cur :: acc
    let r := getME m cur
    match (if r.v1 = v then miInner m v true fuel r.right_next
           else miInner m v false fuel r.left_next) with
    | none => none
    | some nxtOpt =>
      if 1000 < acc'.length then some acc'.reverse
      else
        match nxtOpt with
        | none => some acc'.reverse
        | some nxt => if nxt = start then some acc'.reverse else miOuter m v start fuel acc' nxt

/-- `Vertex::get_incident_edges`, fuel-indexed: `none` means the execution
did not finish within `fuel` elementary steps. -/
def get_incident_edges (m : Mesh) (vid : Nat) (fuel : Nat) : Option (List Nat) :=
  match (getMV m vid).edge with
  | none => some []
  | some e0 => miOuter m vid e0 fuel [] e0

/-- A diverging run of `Vertex::get_incident_edges`: no amount of fuel
finishes the walk. -/
def miDiverges (m : Mesh) (vid : Nat) : Prop :=
  ∀ fuel, get_incident_edges m vid fuel = none

end SketchyMesh

namespace SketchyKernel

/-- The state of a successful operator call, with a fallback for the error
case (never taken on the concrete runs below). -/
def exState (x : Except KErr (Nat × Kernel)) (d : Kernel) : Kernel :=
  match x with
  | .ok (_, s) => s
  | .error _ => d

/-- `MVSF (0,0,0)`: vertex 1, face 1. -/
def stA : Kernel := (mvsf emptyKernel ⟨0, 0, 0⟩).2

/-- ... then `MEV (v1, (1,0,0), f1)`: edge 1 (a spur on face 1), vertex 2. -/
def stSpur : Kernel := exState (mev stA (some 1) ⟨1, 0, 0⟩ (some 1)) stA

/-- ... then `MEV (v2, (1,2,0), f1)`: edge 2, vertex 3. -/
def stC : Kernel := exState (mev stSpur (some 2) ⟨1, 2, 0⟩ (some 1)) stA

/-- ... then `MEF (v3, v1, f1)`: edge 3, face 2 — the triangle scenario of
the spec's §8 and of test `BuildTriangle`. -/
def stTri : Kernel := exState (mef stC (some 3) (some 1) (some 1)) stA

/-- Two `MVSF` calls: vertices 1 and 2 living on distinct faces 1 and 2. -/
def stTwoF : Kernel := (mvsf stA ⟨3, 0, 0⟩).2

end SketchyKernel

/-! ### Generic lemmas about the store operations

The stores model C++ object identity: a lookup is `List.find?` on the
`id` field, a mutation is a `List.map` touching the record with the given
id.  The lemmas below relate lookups before and after such mutations. -/

section ListHelpers

variable {α : Type}

theorem find_map_invar (h : α → α) (p : α → Bool) (hp : ∀ x, p (h x) = p x) :
    ∀ l : List α, (l.map h).find? p = (l.find? p).map h := by
  intro l
  induction l with
  | nil => rfl
  | cons a t ih =>
    simp only [List.map_cons]
    by_cases hpa : p a = true
    · rw [List.find?_cons_of_pos _ ((hp a).trans hpa), List.find?_cons_of_pos _ hpa]
      rfl
    · rw [List.find?_cons_of_neg _ (by simp [hp a, hpa]),
        List.find?_cons_of_neg _ (by simp [hpa]), ih]

theorem find_congr (p q : α → Bool) :
    ∀ l : List α, (∀ x ∈ l, p x = q x) → l.find? p = l.find? q := by
  intro l
  induction l with
  | nil => intro _; rfl
  | cons a t ih =>
    intro hl
    have ha := hl a (List.mem_cons_self a t)
    by_cases hpa : p a = true
    · rw [List.find?_cons_of_pos _ hpa, List.find?_cons_of_pos _ (ha ▸ hpa)]
    · rw [List.find?_cons_of_neg _ hpa, List.find?_cons_of_neg _ (by rw [← ha]; exact hpa),
        ih (fun x hx => hl x (List.mem_cons_of_mem a hx))]

theorem find_append_some (p : α → Bool) (l1 l2 : List α) (h : (l1.find? p).isSome) :
    (l1 ++ l2).find? p = l1.find? p := by
  induction l1 with
  | nil => simp at h
  | cons a t ih =>
    by_cases hpa : p a = true
    · simp only [List.cons_append, List.find?_cons_of_pos _ hpa]
    · simp only [List.find?_cons_of_neg _ hpa] at h
      simp only [List.cons_append, List.find?_cons_of_neg _ hpa, ih h]

theorem find_append_none (p : α → Bool) (l1 l2 : List α) (h : l1.find? p = none) :
    (l1 ++ l2).find? p = l2.find? p := by
  induction l1 with
  | nil => rfl
  | cons a t ih =>
    by_cases hpa : p a = true
    · rw [List.find?_cons_of_pos _ hpa] at h; exact absurd h (by simp)
    · rw [List.find?_cons_of_neg _ hpa] at h
      simp only [List.cons_append, List.find?_cons_of_neg _ hpa, ih h]

theorem find_isSome_of_exists (p : α → Bool) (l : List α) (h : ∃ x ∈ l, p x = true) :
    (l.find? p).isSome := by
  obtain ⟨x, hx, hpx⟩ := h
  induction l with
  | nil => simp at hx
  | cons a t ih =>
    by_cases hpa : p a = true
    · simp [List.find?_cons_of_pos _ hpa]
    · rcases List.mem_cons.mp hx with rfl | hxt
      · exact absurd hpx hpa
      · simp only [List.find?_cons_of_neg _ hpa]; exact ih hxt

theorem nodup_filter_ne_length (a : Nat) (l : List Nat) (hn : l.Nodup) (hm : a ∈ l) :
    (l.filter (fun x => x ≠ a)).length + 1 = l.length := by
  have h1 : l.erase a = l.filter (fun x => x ≠ a) := by
    simpa using hn.erase_eq_filter a
  have h2 : 0 < l.length := List.length_pos_of_mem hm
  rw [← h1, List.length_erase_of_mem hm]
  omega

theorem filter_ne_eq_self (a : Nat) (l : List Nat) (h : a ∉ l) :
    l.filter (fun x => x ≠ a) = l :=
  List.filter_eq_self.mpr (fun x hx => by
    simp only [ne_eq, decide_eq_true_eq]
    exact fun hxa => h (hxa ▸ hx))

end ListHelpers

namespace SketchyKernel

/-- A lookup behind an id-preserving in-place mutation of another record is
unchanged. -/
theorem getE_updE_ne (s : Kernel) (i j : Nat) (g : EdgeRec → EdgeRec)
    (hg : ∀ r, (g r).id = r.id) (hij : i ≠ j) :
    getE (updE s i g) j = getE s j := by
  unfold getE updE
  rw [find_map_invar (fun r => if r.id = i then g r else r) (fun r => r.id == j)
    (fun x => by by_cases hx : x.id = i <;> simp [hx, hg])]
  cases hfind : s.estore.find? (fun r => r.id == j) with
  | none => rfl
  | some r =>
    have hr : r.id = j := by
      have := List.find?_some hfind
      simpa using this
    have hne : r.id ≠ i := by rw [hr]; exact fun h => hij h.symm
    simp [hne]

/-- A lookup of a present record after its own in-place mutation sees the
mutation. -/
theorem getE_updE_self (s : Kernel) (j : Nat) (g : EdgeRec → EdgeRec)
    (hg : ∀ r, (g r).id = r.id) (hpres : ∃ r ∈ s.estore, r.id = j) :
    getE (updE s j g) j = g (getE s j) := by
  unfold getE updE
  rw [find_map_invar (fun r => if r.id = j then g r else r) (fun r => r.id == j)
    (fun x => by by_cases hx : x.id = j <;> simp [hx, hg])]
  obtain ⟨r0, hr0, hid0⟩ := hpres
  have hsome := find_isSome_of_exists (fun r => r.id == j) s.estore ⟨r0, hr0, by simp [hid0]⟩
  cases hfind : s.estore.find? (fun r => r.id == j) with
  | none => rw [hfind] at hsome; simp at hsome
  | some r =>
    have hr : r.id = j := by
      have := List.find?_some hfind
      simpa using this
    simp [hr]

/-- Vertex-store mutations are invisible to edge lookups, and so on for
the other cross-kind combinations. -/
theorem getE_updV (s : Kernel) (i j : Nat) (g : VertexRec → VertexRec) :
    getE (updV s i g) j = getE s j := rfl

theorem getE_updF (s : Kernel) (i j : Nat) (g : FaceRec → FaceRec) :
    getE (updF s i g) j = getE s j := rfl

theorem getV_updE (s : Kernel) (i j : Nat) (g : EdgeRec → EdgeRec) :
    getV (updE s i g) j = getV s j := rfl

theorem getV_updF (s : Kernel) (i j : Nat) (g : FaceRec → FaceRec) :
    getV (updF s i g) j = getV s j := rfl

theorem getV_updV_ne (s : Kernel) (i j : Nat) (g : VertexRec → VertexRec)
    (hg : ∀ r, (g r).id = r.id) (hij : i ≠ j) :
    getV (updV s i g) j = getV s j := by
  unfold getV updV
  rw [find_map_invar (fun r => if r.id = i then g r else r) (fun r => r.id == j)
    (fun x => by by_cases hx : x.id = i <;> simp [hx, hg])]
  cases hfind : s.vstore.find? (fun r => r.id == j) with
  | none => rfl
  | some r =>
    have hr : r.id = j := by
      have := List.find?_some hfind
      simpa using this
    have hne : r.id ≠ i := by rw [hr]; exact fun h => hij h.symm
    simp [hne]

theorem getV_updV_self (s : Kernel) (j : Nat) (g : VertexRec → VertexRec)
    (hg : ∀ r, (g r).id = r.id) (hpres : ∃ r ∈ s.vstore, r.id = j) :
    getV (updV s j g) j = g (getV s j) := by
  unfold getV updV
  rw [find_map_invar (fun r => if r.id = j then g r else r) (fun r => r.id == j)
    (fun x => by by_cases hx : x.id = j <;> simp [hx, hg])]
  obtain ⟨r0, hr0, hid0⟩ := hpres
  have hsome := find_isSome_of_exists (fun r => r.id == j) s.vstore ⟨r0, hr0, by simp [hid0]⟩
  cases hfind : s.vstore.find? (fun r => r.id == j) with
  | none => rw [hfind] at hsome; simp at hsome
  | some r =>
    have hr : r.id = j := by
      have := List.find?_some hfind
      simpa using this
    simp [hr]

/-- Looking up a freshly appended record whose id is not used in the
prefix finds the new record. -/
theorem find_append_fresh {α : Type} (idf : α → Nat) (l : List α) (r : α) (j : Nat)
    (hl : ∀ x ∈ l, idf x ≠ j) (hr : idf r = j) :
    ((l ++ [r]).find? (fun x => idf x == j)) = some r := by
  rw [find_append_none _ _ _ (List.find?_eq_none.mpr (fun x hx => by simp [hl x hx]))]
  simp [hr]

/-- Presence of an id in a store survives an id-preserving map. -/
theorem presence_map {α : Type} (idf : α → Nat) (h : α → α) (hh : ∀ x, idf (h x) = idf x)
    (l : List α) (j : Nat) (hp : ∃ r ∈ l, idf r = j) :
    ∃ r ∈ l.map h, idf r = j := by
  obtain ⟨r, hr, hid⟩ := hp
  exact ⟨h r, List.mem_map_of_mem h hr, (hh r).trans hid⟩

/-- C2.  `KEF` on a live edge with two distinct live adjacent faces
removes the edge, rewrites the face slot of every remaining live edge that
referenced `e->f2` to reference `e->f1`, returns the surviving face
`e->f1`, and shifts the counts by `ΔE = −1`, `ΔF = −1`, `ΔV = 0`. -/
theorem kef_merges_faces (s : Kernel) (e f1v f2v : Nat)
    (hwf : Wf s) (he : e ∈ s.elive)
    (hf1 : (getE s e).f1 = some f1v) (hf2 : (getE s e).f2 = some f2v)
    (_hne : f1v ≠ f2v) (hf2live : f2v ∈ s.flive) :
    ∃ s', kef s (some e) = .ok (f1v, s') ∧
      e ∉ s'.elive ∧
      s'.elive.length + 1 = s.elive.length ∧
      s'.flive.length + 1 = s.flive.length ∧
      s'.vlive = s.vlive ∧
      (∀ x ∈ s'.elive, getE s' x = kefRewrite f1v f2v (getE s x)) := by
  obtain ⟨hv1, he1n, hf1n, hvn, hen, hfn, hvl, hel, hfl, hvs, hes, hfs, hfr, hvr⟩ := hwf
  simp only [kef, hf1, hf2]
  refine ⟨_, rfl, ?_, ?_, ?_, rfl, ?_⟩
  · simp [List.mem_filter]
  · exact nodup_filter_ne_length e s.elive hel he
  · exact nodup_filter_ne_length f2v s.flive hfl hf2live
  · intro x hx
    have hx' : x ∈ s.elive ∧ x ≠ e := by
      have h := List.mem_filter.mp hx
      exact ⟨h.1, by simpa using h.2⟩
    have hinv : ∀ er : EdgeRec,
        ((if er.id ≠ e ∧ er.id ∈ s.elive then kefRewrite f1v f2v er else er).id == x)
          = (er.id == x) := by
      intro er
      by_cases hc : er.id ≠ e ∧ er.id ∈ s.elive <;> simp [hc, kefRewrite]
    simp only [getE]
    rw [find_map_invar _ _ hinv s.estore]
    obtain ⟨r0, hr0, hid0⟩ := hes x hx'.1
    have hsome := find_isSome_of_exists (fun r => r.id == x) s.estore ⟨r0, hr0, by simp [hid0]⟩
    cases hfind : s.estore.find? (fun r => r.id == x) with
    | none => rw [hfind] at hsome; simp at hsome
    | some r =>
      have hr : r.id = x := by simpa using List.find?_some hfind
      have hcond : r.id ≠ e ∧ r.id ∈ s.elive := by rw [hr]; exact ⟨hx'.2, hx'.1⟩
      simp [hcond]

/-! Projections of the in-place store mutations. -/

@[simp] theorem updV_estore (s : Kernel) (i g) : (updV s i g).estore = s.estore := rfl
@[simp] theorem updV_fstore (s : Kernel) (i g) : (updV s i g).fstore = s.fstore := rfl
@[simp] theorem updV_vlive (s : Kernel) (i g) : (updV s i g).vlive = s.vlive := rfl
@[simp] theorem updV_elive (s : Kernel) (i g) : (updV s i g).elive = s.elive := rfl
@[simp] theorem updV_flive (s : Kernel) (i g) : (updV s i g).flive = s.flive := rfl
@[simp] theorem updE_vstore (s : Kernel) (i g) : (updE s i g).vstore = s.vstore := rfl
@[simp] theorem updE_fstore (s : Kernel) (i g) : (updE s i g).fstore = s.fstore := rfl
@[simp] theorem updE_vlive (s : Kernel) (i g) : (updE s i g).vlive = s.vlive := rfl
@[simp] theorem updE_elive (s : Kernel) (i g) : (updE s i g).elive = s.elive := rfl
@[simp] theorem updE_flive (s : Kernel) (i g) : (updE s i g).flive = s.flive := rfl
@[simp] theorem updF_vstore (s : Kernel) (i g) : (updF s i g).vstore = s.vstore := rfl
@[simp] theorem updF_estore (s : Kernel) (i g) : (updF s i g).estore = s.estore := rfl
@[simp] theorem updF_vlive (s : Kernel) (i g) : (updF s i g).vlive = s.vlive := rfl
@[simp] theorem updF_elive (s : Kernel) (i g) : (updF s i g).elive = s.elive := rfl
@[simp] theorem updF_flive (s : Kernel) (i g) : (updF s i g).flive = s.flive := rfl

/-! Phase lemmas for `mev`. -/

theorem mevRefsU_estore (s : Kernel) (u eid : Nat) : (mevRefsU s u eid).estore = s.estore := by
  unfold mevRefsU; split <;> rfl

theorem mevRefsU_fstore (s : Kernel) (u eid : Nat) : (mevRefsU s u eid).fstore = s.fstore := by
  unfold mevRefsU; split <;> rfl

theorem mevRefsU_vlive (s : Kernel) (u eid : Nat) : (mevRefsU s u eid).vlive = s.vlive := by
  unfold mevRefsU; split <;> rfl

theorem mevRefsU_elive (s : Kernel) (u eid : Nat) : (mevRefsU s u eid).elive = s.elive := by
  unfold mevRefsU; split <;> rfl

theorem mevRefsU_flive (s : Kernel) (u eid : Nat) : (mevRefsU s u eid).flive = s.flive := by
  unfold mevRefsU; split <;> rfl

theorem mevRefsF_estore (s : Kernel) (f eid : Nat) : (mevRefsF s f eid).estore = s.estore := by
  unfold mevRefsF; split <;> rfl

theorem mevRefsF_vstore (s : Kernel) (f eid : Nat) : (mevRefsF s f eid).vstore = s.vstore := by
  unfold mevRefsF; split <;> rfl

theorem mevRefsF_vlive (s : Kernel) (f eid : Nat) : (mevRefsF s f eid).vlive = s.vlive := by
  unfold mevRefsF; split <;> rfl

theorem mevRefsF_elive (s : Kernel) (f eid : Nat) : (mevRefsF s f eid).elive = s.elive := by
  unfold mevRefsF; split <;> rfl

theorem mevRefsF_flive (s : Kernel) (f eid : Nat) : (mevRefsF s f eid).flive = s.flive := by
  unfold mevRefsF; split <;> rfl

theorem mevRefs_estore (s : Kernel) (u wid eid f : Nat) :
    (mevRefs s u wid eid f).estore = s.estore := by
  unfold mevRefs
  rw [mevRefsF_estore, updV_estore, mevRefsU_estore]

theorem mevRefs_vlive (s : Kernel) (u wid eid f : Nat) :
    (mevRefs s u wid eid f).vlive = s.vlive := by
  unfold mevRefs
  rw [mevRefsF_vlive, updV_vlive, mevRefsU_vlive]

theorem mevRefs_elive (s : Kernel) (u wid eid f : Nat) :
    (mevRefs s u wid eid f).elive = s.elive := by
  unfold mevRefs
  rw [mevRefsF_elive, updV_elive, mevRefsU_elive]

theorem mevRefs_flive (s : Kernel) (u wid eid f : Nat) :
    (mevRefs s u wid eid f).flive = s.flive := by
  unfold mevRefs
  rw [mevRefsF_flive, updV_flive, mevRefsU_flive]

theorem mevWireB_vstore (s : Kernel) (u pe eid : Nat) :
    (mevWireB s u pe eid).vstore = s.vstore := by
  unfold mevWireB; split <;> rfl

theorem mevWireB_vlive (s : Kernel) (u pe eid : Nat) :
    (mevWireB s u pe eid).vlive = s.vlive := by
  unfold mevWireB; split <;> rfl

theorem mevWireB_elive (s : Kernel) (u pe eid : Nat) :
    (mevWireB s u pe eid).elive = s.elive := by
  unfold mevWireB; split <;> rfl

theorem mevWireB_flive (s : Kernel) (u pe eid : Nat) :
    (mevWireB s u pe eid).flive = s.flive := by
  unfold mevWireB; split <;> rfl

theorem mevWireB_getE_other (s : Kernel) (u pe eid j : Nat) (hj : pe ≠ j) :
    getE (mevWireB s u pe eid) j = getE s j := by
  unfold mevWireB
  split <;> exact getE_updE_ne s pe j _ (fun r => rfl) hj

theorem mevWire_vstore (s : Kernel) (u eid : Nat) :
    (mevWire s u eid).vstore = s.vstore := by
  unfold mevWire
  split
  · rfl
  · split
    · rfl
    · rw [updE_vstore, mevWireB_vstore]; rfl

theorem mevWire_vlive (s : Kernel) (u eid : Nat) :
    (mevWire s u eid).vlive = s.vlive := by
  unfold mevWire
  split
  · rfl
  · split
    · rfl
    · rw [updE_vlive, mevWireB_vlive]; rfl

theorem mevWire_elive (s : Kernel) (u eid : Nat) :
    (mevWire s u eid).elive = s.elive := by
  unfold mevWire
  split
  · rfl
  · split
    · rfl
    · rw [updE_elive, mevWireB_elive]; rfl

theorem mevWire_flive (s : Kernel) (u eid : Nat) :
    (mevWire s u eid).flive = s.flive := by
  unfold mevWire
  split
  · rfl
  · split
    · rfl
    · rw [updE_flive, mevWireB_flive]; rfl

/-- `getV` through `mevWire` (which touches only the edge store). -/
theorem mevWire_getV (s : Kernel) (u eid j : Nat) :
    getV (mevWire s u eid) j = getV s j := by
  unfold getV
  rw [mevWire_vstore]

/-- The core fields of the new edge survive the wing-wiring phase. -/
theorem mevWire_getE_core (s : Kernel) (u eid : Nat)
    (hpres : ∃ r ∈ s.estore, r.id = eid) :
    (getE (mevWire s u eid) eid).v1 = (getE s eid).v1 ∧
    (getE (mevWire s u eid) eid).v2 = (getE s eid).v2 ∧
    (getE (mevWire s u eid) eid).f1 = (getE s eid).f1 ∧
    (getE (mevWire s u eid) eid).f2 = (getE s eid).f2 := by
  unfold mevWire
  split
  · rw [getE_updE_self s eid
      (fun r =>
        { r with p1_f1 := some eid, n1_f1 := some eid, p2_f2 := some eid, n2_f2 := some eid })
      (fun r => rfl) hpres]
    exact ⟨rfl, rfl, rfl, rfl⟩
  · next hcond =>
    split
    · exact ⟨rfl, rfl, rfl, rfl⟩
    · next pe hpe =>
      have hpene : pe ≠ eid := fun h => hcond (h ▸ hpe)
      have hpresA : ∃ r ∈ (mevWireA s pe eid).estore, r.id = eid := by
        simpa [mevWireA, updE] using
          presence_map EdgeRec.id _ (fun x => by split <;> rfl) s.estore eid hpres
      have hpresB : ∃ r ∈ (mevWireB (mevWireA s pe eid) u pe eid).estore, r.id = eid := by
        unfold mevWireB
        split <;>
          simpa [updE] using
            presence_map EdgeRec.id _ (fun x => by split <;> rfl) _ eid hpresA
      have hA : getE (mevWireA s pe eid) eid
          = (fun r => { r with p1_f1 := some pe, n1_f1 := (getE s pe).n1_f1 }) (getE s eid) := by
        unfold mevWireA
        exact getE_updE_self s eid
          (fun r => { r with p1_f1 := some pe, n1_f1 := (getE s pe).n1_f1 }) (fun r => rfl) hpres
      rw [getE_updE_self _ eid
          (fun r => { r with p2_f2 := some eid, n2_f2 := some eid }) (fun r => rfl) hpresB,
        mevWireB_getE_other _ u pe eid eid hpene, hA]
      exact ⟨rfl, rfl, rfl, rfl⟩

theorem getE_congr (s1 s2 : Kernel) (j : Nat) (h : s1.estore = s2.estore) :
    getE s1 j = getE s2 j := by
  unfold getE
  rw [h]

theorem getV_congr (s1 s2 : Kernel) (j : Nat) (h : s1.vstore = s2.vstore) :
    getV s1 j = getV s2 j := by
  unfold getV
  rw [h]

theorem getF_congr (s1 s2 : Kernel) (j : Nat) (h : s1.fstore = s2.fstore) :
    getF s1 j = getF s2 j := by
  unfold getF
  rw [h]

/-- A freshly appended edge record is what its id dereferences to. -/
theorem getE_of_append (s : Kernel) (E0 : List EdgeRec) (r : EdgeRec)
    (hs : s.estore = E0 ++ [r]) (h0 : ∀ x ∈ E0, x.id ≠ r.id) :
    getE s r.id = r := by
  unfold getE
  rw [hs, find_append_fresh EdgeRec.id E0 r r.id h0 rfl]
  rfl

/-- A freshly appended vertex record is what its id dereferences to. -/
theorem getV_of_append (s : Kernel) (V0 : List VertexRec) (r : VertexRec)
    (hs : s.vstore = V0 ++ [r]) (h0 : ∀ x ∈ V0, x.id ≠ r.id) :
    getV s r.id = r := by
  unfold getV
  rw [hs, find_append_fresh VertexRec.id V0 r r.id h0 rfl]
  rfl

theorem mevRefsU_getV_other (s : Kernel) (u eid j : Nat) (h : u ≠ j) :
    getV (mevRefsU s u eid) j = getV s j := by
  unfold mevRefsU
  split
  · exact getV_updV_ne s u j _ (fun r => rfl) h
  · rfl

/-- C6.  `MEV` on a live vertex `u` and live face `f` creates one vertex
`w` at `p` and one edge `e = (u, w)` with both face slots pointing at `f`,
changes the counts by `ΔV = +1`, `ΔE = +1`, `ΔF = 0`, and returns the new
edge handle, whose `v2` is `w`. -/
theorem mev_creates_edge_vertex (s : Kernel) (u f : Nat) (p : Point3D)
    (hwf : Wf s) (hu : u ∈ s.vlive) (_hf : f ∈ s.flive) :
    ∃ s', mev s (some u) p (some f) = .ok (s.next_e_id, s') ∧
      s'.vlive = s.vlive ++ [s.next_v_id] ∧
      s'.elive = s.elive ++ [s.next_e_id] ∧
      s'.flive = s.flive ∧
      (getE s' s.next_e_id).v1 = some u ∧
      (getE s' s.next_e_id).v2 = some s.next_v_id ∧
      (getE s' s.next_e_id).f1 = some f ∧
      (getE s' s.next_e_id).f2 = some f ∧
      (getV s' s.next_v_id).coords = p := by
  obtain ⟨hv1, he1n, hf1n, hvn, hen, hfn, hvl, hel, hfl, hvs, hes, hfs, hfr, hvr⟩ := hwf
  obtain ⟨ru, hru, hruid⟩ := hvs u hu
  have hult : u < s.next_v_id := hruid ▸ hv1 ru hru
  refine ⟨_, rfl, ?_, ?_, ?_, ?_⟩
  · rw [mevWire_vlive, mevRefs_vlive]; rfl
  · rw [mevWire_elive, mevRefs_elive]; rfl
  · rw [mevWire_flive, mevRefs_flive]; rfl
  · have hSP : getE (mevRefs (mevPush s u p f) u s.next_v_id s.next_e_id f) s.next_e_id
        = ⟨s.next_e_id, some u, some s.next_v_id, some f, some f, none, none, none, none⟩ := by
      rw [getE_congr _ (mevPush s u p f) _ (mevRefs_estore _ u s.next_v_id s.next_e_id f)]
      exact getE_of_append _ s.estore
        ⟨s.next_e_id, some u, some s.next_v_id, some f, some f, none, none, none, none⟩ rfl
        (fun x hx => Nat.ne_of_lt (he1n x hx))
    have hpres : ∃ r ∈ (mevRefs (mevPush s u p f) u s.next_v_id s.next_e_id f).estore,
        r.id = s.next_e_id := by
      rw [mevRefs_estore]
      exact ⟨_, List.mem_append_right _ (List.mem_singleton_self _), rfl⟩
    obtain ⟨h1, h2, h3, h4⟩ :=
      mevWire_getE_core (mevRefs (mevPush s u p f) u s.next_v_id s.next_e_id f) u s.next_e_id hpres
    rw [h1, h2, h3, h4, hSP]
    refine ⟨rfl, rfl, rfl, rfl, ?_⟩
    rw [mevWire_getV]
    unfold mevRefs
    rw [getV_congr _ _ _ (mevRefsF_vstore _ f s.next_e_id)]
    have hpresW : ∃ r ∈ (mevRefsU (mevPush s u p f) u s.next_e_id).vstore,
        r.id = s.next_v_id := by
      unfold mevRefsU
      split
      · simpa [updV] using
          presence_map VertexRec.id _ (fun x => by split <;> rfl) (mevPush s u p f).vstore
            s.next_v_id ⟨_, List.mem_append_right _ (List.mem_singleton_self _), rfl⟩
      · exact ⟨_, List.mem_append_right _ (List.mem_singleton_self _), rfl⟩
    rw [getV_updV_self _ s.next_v_id (fun r => { r with edge := some s.next_e_id })
        (fun r => rfl) hpresW,
      mevRefsU_getV_other _ u s.next_e_id s.next_v_id (Nat.ne_of_lt hult),
      getV_of_append (mevPush s u p f) s.vstore ⟨s.next_v_id, p, none⟩ rfl
        (fun x hx => Nat.ne_of_lt (hv1 x hx))]

/-! Phase lemmas for `mef`. -/

theorem map_id_on {α : Type} (g : α → α) :
    ∀ l : List α, (∀ x ∈ l, g x = x) → l.map g = l := by
  intro l
  induction l with
  | nil => intro _; rfl
  | cons a t ih =>
    intro h
    simp only [List.map_cons, h a (List.mem_cons_self a t),
      ih (fun x hx => h x (List.mem_cons_of_mem a hx))]

/-- Mutating the freshly appended record only rewrites the appendix. -/
theorem map_upd_append {α : Type} (idf : α → Nat) (E0 : List α) (r : α) (g : α → α) (eid : Nat)
    (h0 : ∀ x ∈ E0, idf x ≠ eid) (hr : idf r = eid) :
    (E0 ++ [r]).map (fun x => if idf x = eid then g x else x) = E0 ++ [g r] := by
  rw [List.map_append, map_id_on _ E0 (fun x hx => if_neg (h0 x hx))]
  simp [hr]

theorem mefWire1_vstore (s : Kernel) (a eid : Nat) : (mefWire1 s a eid).vstore = s.vstore := by
  unfold mefWire1; split <;> rfl

theorem mefWire1_fstore (s : Kernel) (a eid : Nat) : (mefWire1 s a eid).fstore = s.fstore := by
  unfold mefWire1; split <;> rfl

theorem mefWire1_vlive (s : Kernel) (a eid : Nat) : (mefWire1 s a eid).vlive = s.vlive := by
  unfold mefWire1; split <;> rfl

theorem mefWire1_elive (s : Kernel) (a eid : Nat) : (mefWire1 s a eid).elive = s.elive := by
  unfold mefWire1; split <;> rfl

theorem mefWire1_flive (s : Kernel) (a eid : Nat) : (mefWire1 s a eid).flive = s.flive := by
  unfold mefWire1; split <;> rfl

theorem mefWire_vstore (s : Kernel) (a b eid : Nat) : (mefWire s a b eid).vstore = s.vstore := by
  unfold mefWire
  split
  · rw [updE_vstore, mefWire1_vstore]
  · rw [mefWire1_vstore]

theorem mefWire_fstore (s : Kernel) (a b eid : Nat) : (mefWire s a b eid).fstore = s.fstore := by
  unfold mefWire
  split
  · rw [updE_fstore, mefWire1_fstore]
  · rw [mefWire1_fstore]

theorem mefWire_vlive (s : Kernel) (a b eid : Nat) : (mefWire s a b eid).vlive = s.vlive := by
  unfold mefWire
  split
  · rw [updE_vlive, mefWire1_vlive]
  · rw [mefWire1_vlive]

theorem mefWire_elive (s : Kernel) (a b eid : Nat) : (mefWire s a b eid).elive = s.elive := by
  unfold mefWire
  split
  · rw [updE_elive, mefWire1_elive]
  · rw [mefWire1_elive]

theorem mefWire_flive (s : Kernel) (a b eid : Nat) : (mefWire s a b eid).flive = s.flive := by
  unfold mefWire
  split
  · rw [updE_flive, mefWire1_flive]
  · rw [mefWire1_flive]

theorem mefWire1_estore_shape (s : Kernel) (a eid : Nat) (E0 : List EdgeRec) (r : EdgeRec)
    (hs : s.estore = E0 ++ [r]) (hrid : r.id = eid) (h0 : ∀ x ∈ E0, x.id ≠ eid) :
    ∃ r', (mefWire1 s a eid).estore = E0 ++ [r'] ∧ r'.id = eid ∧ r'.f1 = r.f1 ∧ r'.f2 = r.f2 := by
  unfold mefWire1
  split
  · next v1e _ =>
    refine ⟨{ r with p1_f1 := some v1e, n1_f1 := some v1e }, ?_, hrid, rfl, rfl⟩
    show s.estore.map _ = _
    rw [hs]
    exact map_upd_append EdgeRec.id E0 r _ eid h0 hrid
  · exact ⟨r, hs, hrid, rfl, rfl⟩

theorem mefWire_estore_shape (s : Kernel) (a b eid : Nat) (E0 : List EdgeRec) (r : EdgeRec)
    (hs : s.estore = E0 ++ [r]) (hrid : r.id = eid) (h0 : ∀ x ∈ E0, x.id ≠ eid) :
    ∃ r', (mefWire s a b eid).estore = E0 ++ [r'] ∧ r'.id = eid ∧ r'.f1 = r.f1 ∧ r'.f2 = r.f2 := by
  obtain ⟨r1, hs1, hid1, hf11, hf21⟩ := mefWire1_estore_shape s a eid E0 r hs hrid h0
  unfold mefWire
  split
  · next v2e _ =>
    refine ⟨{ r1 with p2_f2 := some v2e, n2_f2 := some v2e }, ?_, hid1,
      hf11, hf21⟩
    show (mefWire1 s a eid).estore.map _ = _
    rw [hs1]
    exact map_upd_append EdgeRec.id E0 r1 _ eid h0 hid1
  · exact ⟨r1, hs1, hid1, hf11, hf21⟩

theorem mef_eq (s : Kernel) (a b f : Nat) (hab : a ≠ b) :
    mef s (some a) (some b) (some f)
      = .ok (s.next_e_id, mefWire (mefPush s a b f) a b s.next_e_id) := by
  show (if a = b then Except.error (KErr.invalidArg "MEF: cannot create edge between same vertex")
      else Except.ok (s.next_e_id, mefWire (mefPush s a b f) a b s.next_e_id)) = _
  rw [if_neg hab]

theorem kef_eq_ok (s : Kernel) (e f1v f2v : Nat)
    (hf1 : (getE s e).f1 = some f1v) (hf2 : (getE s e).f2 = some f2v) :
    kef s (some e) = .ok (f1v,
      { s with
        elive := s.elive.filter (fun x => x ≠ e)
        estore := s.estore.map (fun er =>
          if er.id ≠ e ∧ er.id ∈ s.elive then kefRewrite f1v f2v er else er)
        flive := s.flive.filter (fun x => x ≠ f2v) }) := by
  simp only [kef, hf1, hf2]

theorem kefRewrite_noop (f1v f2v : Nat) (r : EdgeRec)
    (h1 : r.f1 ≠ some f2v) (h2 : r.f2 ≠ some f2v) : kefRewrite f1v f2v r = r := by
  unfold kefRewrite
  rw [if_neg h1, if_neg h2]

/-- C3.  A legal `MEF` immediately followed by `KEF` on the edge it
returned restores the live vertex, edge and face lists exactly, and every
surviving entity's record (hence its adjacency neighborhood) equals its
pre-`MEF` state.  Only the id counters advance. -/
theorem mef_kef_round_trip (s : Kernel) (a b f eid fr : Nat) (s1 s2 : Kernel)
    (hwf : Wf s) (hab : a ≠ b) (_ha : a ∈ s.vlive) (_hb : b ∈ s.vlive) (_hf : f ∈ s.flive)
    (hmef : mef s (some a) (some b) (some f) = .ok (eid, s1))
    (hkef : kef s1 (some eid) = .ok (fr, s2)) :
    fr = f ∧ s2.vlive = s.vlive ∧ s2.elive = s.elive ∧ s2.flive = s.flive ∧
    (∀ i ∈ s.vlive, getV s2 i = getV s i) ∧
    (∀ i ∈ s.elive, getE s2 i = getE s i) ∧
    (∀ i ∈ s.flive, getF s2 i = getF s i) := by
  obtain ⟨hv1, he1n, hf1n, hvn, hen, hfn, hvl, hel, hfl, hvs, hes, hfs, hfrb, hvr⟩ := hwf
  rw [mef_eq s a b f hab, Except.ok.injEq, Prod.mk.injEq] at hmef
  obtain ⟨heid, hs1⟩ := hmef
  subst heid
  subst hs1
  obtain ⟨er, hse, hierid, hef1, hef2⟩ :=
    mefWire_estore_shape (mefPush s a b f) a b s.next_e_id s.estore
      ⟨s.next_e_id, some a, some b, some f, some s.next_f_id, none, none, none, none⟩
      rfl rfl (fun x hx => Nat.ne_of_lt (he1n x hx))
  have hger : getE (mefWire (mefPush s a b f) a b s.next_e_id) s.next_e_id = er := by
    have h := getE_of_append _ s.estore er hse
      (fun x hx => by rw [hierid]; exact Nat.ne_of_lt (he1n x hx))
    rw [hierid] at h
    exact h
  have hge1 : (getE (mefWire (mefPush s a b f) a b s.next_e_id) s.next_e_id).f1 = some f := by
    rw [hger, hef1]
  have hge2 : (getE (mefWire (mefPush s a b f) a b s.next_e_id) s.next_e_id).f2
      = some s.next_f_id := by
    rw [hger, hef2]
  rw [kef_eq_ok _ s.next_e_id f s.next_f_id hge1 hge2, Except.ok.injEq, Prod.mk.injEq] at hkef
  obtain ⟨hfr, hs2⟩ := hkef
  subst hs2
  have heidnot : s.next_e_id ∉ s.elive := by
    intro hmem
    obtain ⟨r0, hr0, hid0⟩ := hes _ hmem
    exact Nat.lt_irrefl _ (hid0 ▸ he1n r0 hr0)
  have hfidnot : s.next_f_id ∉ s.flive := by
    intro hmem
    obtain ⟨r0, hr0, hid0⟩ := hfs _ hmem
    exact Nat.lt_irrefl _ (hid0 ▸ hf1n r0 hr0)
  have hWel : (mefWire (mefPush s a b f) a b s.next_e_id).elive = s.elive ++ [s.next_e_id] := by
    rw [mefWire_elive]; rfl
  refine ⟨hfr.symm, ?_, ?_, ?_, ?_, ?_, ?_⟩
  · show (mefWire (mefPush s a b f) a b s.next_e_id).vlive = s.vlive
    rw [mefWire_vlive]; rfl
  · show (mefWire (mefPush s a b f) a b s.next_e_id).elive.filter (fun x => x ≠ s.next_e_id)
      = s.elive
    rw [hWel, List.filter_append, filter_ne_eq_self _ _ heidnot]
    simp
  · show (mefWire (mefPush s a b f) a b s.next_e_id).flive.filter (fun x => x ≠ s.next_f_id)
      = s.flive
    rw [mefWire_flive, show (mefPush s a b f).flive = s.flive ++ [s.next_f_id] from rfl,
      List.filter_append, filter_ne_eq_self _ _ hfidnot]
    simp
  · intro i _
    apply getV_congr
    show (mefWire (mefPush s a b f) a b s.next_e_id).vstore = s.vstore
    rw [mefWire_vstore]; rfl
  · intro i hi
    have hine : i ≠ s.next_e_id := by
      intro h
      exact heidnot (h ▸ hi)
    have hinW : i ∈ (mefWire (mefPush s a b f) a b s.next_e_id).elive := by
      rw [hWel]; exact List.mem_append_left _ hi
    obtain ⟨r0, hr0, hid0⟩ := hes i hi
    have hinv : ∀ x : EdgeRec,
        ((if x.id ≠ s.next_e_id ∧ x.id ∈ (mefWire (mefPush s a b f) a b s.next_e_id).elive
          then kefRewrite f s.next_f_id x else x).id == i) = (x.id == i) := by
      intro x
      by_cases hc : x.id ≠ s.next_e_id ∧
          x.id ∈ (mefWire (mefPush s a b f) a b s.next_e_id).elive <;>
        simp [hc, kefRewrite]
    show ((((mefWire (mefPush s a b f) a b s.next_e_id).estore.map _).find?
      (fun r => r.id == i)).getD edefault) = getE s i
    rw [find_map_invar _ _ hinv, hse,
      find_append_some _ _ _
        (find_isSome_of_exists _ s.estore ⟨r0, hr0, by simp [hid0]⟩)]
    cases hfind : s.estore.find? (fun r => r.id == i) with
    | none =>
      have := find_isSome_of_exists (fun r : EdgeRec => r.id == i) s.estore
        ⟨r0, hr0, by simp [hid0]⟩
      rw [hfind] at this
      simp at this
    | some rr =>
      have hrr : rr.id = i := by simpa using List.find?_some hfind
      have hrrmem : rr ∈ s.estore := List.mem_of_find?_eq_some hfind
      have hcond : rr.id ≠ s.next_e_id ∧
          rr.id ∈ (mefWire (mefPush s a b f) a b s.next_e_id).elive := by
        rw [hrr]; exact ⟨hine, hinW⟩
      have hnoop : kefRewrite f s.next_f_id rr = rr := by
        apply kefRewrite_noop
        · intro hq
          exact Nat.lt_irrefl _ ((hfrb rr hrrmem).1 s.next_f_id (by rw [hq]; rfl))
        · intro hq
          exact Nat.lt_irrefl _ ((hfrb rr hrrmem).2 s.next_f_id (by rw [hq]; rfl))
      simp only [Option.map_some']
      rw [if_pos hcond, hnoop]
      unfold getE
      rw [hfind]
  · intro i hi
    obtain ⟨r0, hr0, hid0⟩ := hfs i hi
    show ((((mefWire (mefPush s a b f) a b s.next_e_id).fstore).find?
      (fun r => r.id == i)).getD fdefault) = getF s i
    rw [mefWire_fstore, show (mefPush s a b f).fstore
        = s.fstore ++ [⟨s.next_f_id, some s.next_e_id⟩] from rfl,
      find_append_some _ _ _ (find_isSome_of_exists _ s.fstore ⟨r0, hr0, by simp [hid0]⟩)]
    rfl

/-! Invariants of the face-boundary walk. -/

/-- Every successful run of the `getFaceBoundary` loop extends the
accumulator with pairwise-distinct edges, every one of which — except
possibly the final one — has a face slot referencing the face, and its
length is bounded by the live edge count plus one. -/
theorem fbLoop_inv (s : Kernel) (f start : Nat) :
    ∀ fuel acc cur out, fbLoop s f start fuel acc cur = some out →
      acc.Nodup → (∀ x ∈ acc, edgeRefsFace s x f) → acc.length ≤ s.elive.length →
      out.Nodup ∧ (∀ x ∈ out.dropLast, edgeRefsFace s x f) ∧
      out.length ≤ s.elive.length + 1 := by
  intro fuel
  induction fuel with
  | zero =>
    intro acc cur out h
    exact absurd h (by simp [fbLoop])
  | succ n ih =>
    intro acc cur out h hnd href hlen
    simp only [fbLoop] at h
    split at h
    · -- revisit break: the result is the accumulator so far
      obtain rfl : acc.reverse = out := by simpa using h
      refine ⟨List.nodup_reverse.mpr hnd, ?_, by simpa using Nat.le_succ_of_le hlen⟩
      intro x hx
      exact href x (by
        have := List.dropLast_sublist (l := acc.reverse)
        simpa using this.subset hx)
    · next hnotmem =>
      have hstop : ∀ l : List Nat, (cur :: acc).reverse = l →
          (∀ x ∈ (cur :: acc), edgeRefsFace s x f) →
          l.Nodup ∧ (∀ x ∈ l.dropLast, edgeRefsFace s x f) ∧
          l.length ≤ s.elive.length + 1 := by
        intro l hl hall
        subst hl
        refine ⟨List.nodup_reverse.mpr (List.nodup_cons.mpr ⟨hnotmem, hnd⟩), ?_, ?_⟩
        · intro x hx
          exact hall x (List.mem_reverse.mp
            ((List.dropLast_sublist (l := (cur :: acc).reverse)).subset hx))
        · simp only [List.length_reverse, List.length_cons]
          omega
      split at h
      · -- side mismatch break: dropLast discards the just-pushed edge
        obtain rfl : (cur :: acc).reverse = out := by simpa using h
        refine ⟨List.nodup_reverse.mpr (List.nodup_cons.mpr ⟨hnotmem, hnd⟩), ?_, ?_⟩
        · intro x hx
          rw [List.reverse_cons, List.dropLast_concat] at hx
          exact href x (by simpa using hx)
        · simp only [List.length_reverse, List.length_cons]
          omega
      · -- the edge references f and its link is null: stop with it included
        next heq =>
        have hrefs : edgeRefsFace s cur f := by
          by_cases h1 : (getE s cur).f1 = some f
          · exact Or.inl h1
          · by_cases h2 : (getE s cur).f2 = some f
            · exact Or.inr h2
            · rw [if_neg h1, if_neg h2] at heq
              exact absurd heq (by simp)
        exact hstop out (by simpa using h)
          (fun x hx => (List.mem_cons.mp hx).elim (fun he => he ▸ hrefs) (href x))
      · next nxt heq =>
        have hrefs : edgeRefsFace s cur f := by
          by_cases h1 : (getE s cur).f1 = some f
          · exact Or.inl h1
          · by_cases h2 : (getE s cur).f2 = some f
            · exact Or.inr h2
            · rw [if_neg h1, if_neg h2] at heq
              exact absurd heq (by simp)
        have hall : ∀ x ∈ (cur :: acc), edgeRefsFace s x f :=
          fun x hx => (List.mem_cons.mp hx).elim (fun he => he ▸ hrefs) (href x)
        split at h
        · exact hstop out (by simpa using h) hall
        · next hguard =>
          split at h
          · exact hstop out (by simpa using h) hall
          · exact ih (cur :: acc) nxt out h
              (List.nodup_cons.mpr ⟨hnotmem, hnd⟩) hall (by
                simp only [List.length_cons] at hguard ⊢
                omega)

/-- C4 (amended).  On every kernel state, `getFaceBoundary` returns a
finite sequence of pairwise-distinct edges, each of which — except
possibly the final one — has a face slot referencing the face, of length
at most the live edge count plus one.  (In particular a spur is traversed
once, not twice.) -/
theorem getFaceBoundary_cycle_shape (s : Kernel) (f : Nat) :
    (getFaceBoundary s (some f)).Nodup ∧
    (∀ x ∈ (getFaceBoundary s (some f)).dropLast, edgeRefsFace s x f) ∧
    (getFaceBoundary s (some f)).length ≤ s.elive.length + 1 := by
  unfold getFaceBoundary
  cases hedge : (getF s f).edge with
  | none => simp [hedge]
  | some e0 =>
    simp only [hedge]
    cases hres : fbLoop s f e0 (s.elive.length + 2) [] e0 with
    | none => simp [hres]
    | some out =>
      simp only [hres, Option.getD_some]
      exact fbLoop_inv s f e0 (s.elive.length + 2) [] e0 out hres List.nodup_nil
        (by intro x hx; simp at hx) (Nat.zero_le _)

/-- The `getIncidentEdges` loop cannot exhaust a fuel of `E + 2`: the
code's own revisit set and size guard stop it first. -/
theorem wkIncLoop_no_fuel_exhaustion (s : Kernel) (v start : Nat) :
    ∀ fuel acc cur, acc.length ≤ s.elive.length + 1 →
      s.elive.length + 2 ≤ acc.length + fuel →
      wkIncLoop s v start fuel acc cur ≠ none := by
  intro fuel
  induction fuel with
  | zero =>
    intro acc cur hlen hfuel
    omega
  | succ n ih =>
    intro acc cur hlen hfuel
    simp only [wkIncLoop]
    split
    · simp
    · split
      · simp
      · simp
      · split
        · simp
        · next hguard =>
          split
          · simp
          · exact ih (cur :: acc) _ (by simp only [List.length_cons] at hguard ⊢; omega)
              (by simp only [List.length_cons]; omega)

/-- C7 (amended, positive half).  The `WingedEdgeKernel::getIncidentEdges`
walk terminates on every kernel state — consistent or not: within
`E + 2` steps it either returns to the start, detects a revisited edge, a
foreign or null link, or trips the size guard, and returns the edges
collected so far. -/
theorem getIncidentEdges_terminates (s : Kernel) (v e0 : Nat) :
    (wkIncLoop s v e0 (s.elive.length + 2) [] e0).isSome = true := by
  cases hres : wkIncLoop s v e0 (s.elive.length + 2) [] e0 with
  | none =>
    exact absurd hres
      (wkIncLoop_no_fuel_exhaustion s v e0 (s.elive.length + 2) [] e0 (by simp) (by simp))
  | some out => rfl

/-- C5 (amended).  `MEF` raises `bad-argument` only for null handles or
identical vertices; with any two distinct vertex handles it proceeds —
creating an edge and a face — without verifying that the vertices lie on
the face's boundary.  `KEF` raises `bad-argument` only for a null edge or
an unset face slot; a dangling spur made by `MEV` (both slots the same
face) passes the check and `KEF` proceeds, deleting that face. -/
theorem mef_kef_skip_topology_checks :
    (∀ (s : Kernel) (a b f : Nat), a ≠ b →
      ∃ s', mef s (some a) (some b) (some f) = .ok (s.next_e_id, s') ∧
        s'.elive.length = s.elive.length + 1 ∧
        s'.flive.length = s.flive.length + 1) ∧
    (∀ (s : Kernel) (e fv : Nat), (getE s e).f1 = some fv → (getE s e).f2 = some fv →
      fv ∈ s.flive →
      ∃ s', kef s (some e) = .ok (fv, s') ∧ fv ∉ s'.flive ∧ fv ∈ s.flive) := by
  constructor
  · intro s a b f hab
    refine ⟨_, mef_eq s a b f hab, ?_, ?_⟩
    · rw [mefWire_elive]
      show (s.elive ++ [s.next_e_id]).length = _
      simp
    · rw [mefWire_flive]
      show (s.flive ++ [s.next_f_id]).length = _
      simp
  · intro s e fv h1 h2 hmem
    have hnot : fv ∉ s.flive.filter (fun x => x ≠ fv) := by
      intro hcontra
      have h := List.mem_filter.mp hcontra
      simp at h
    exact ⟨_, kef_eq_ok s e fv fv h1 h2, hnot, hmem⟩

theorem mef_kef_skip_topology_checks_witness :
    (∃ s', mef stTwoF (some 1) (some 2) (some 1) = .ok (stTwoF.next_e_id, s') ∧
      s'.elive.length = stTwoF.elive.length + 1 ∧
      s'.flive.length = stTwoF.flive.length + 1) ∧
    (∃ s', kef stSpur (some 1) = .ok (1, s') ∧ (1 : Nat) ∉ s'.flive ∧
      (1 : Nat) ∈ stSpur.flive) :=
  ⟨mef_kef_skip_topology_checks.1 stTwoF 1 2 1 (by decide),
   mef_kef_skip_topology_checks.2 stSpur 1 1 (by decide) (by decide) (by decide)⟩

/-- C5 (counterexample).  `MEF` between vertices of two different faces
(vertex 1 on face 1, vertex 2 on face 2, neither face has any boundary)
returns success, and `KEF` on the never-promoted spur made by `MEV`
returns success and mutates the state (the live face and edge lists become
empty) — no topology-violation error is raised and the mesh is changed. -/
theorem c5_no_topology_violation_raised :
    okVal (kef stSpur (some 1)) = some 1 ∧
    (okState (kef stSpur (some 1))).map Kernel.flive = some [] ∧
    (okState (kef stSpur (some 1))).map Kernel.elive = some [] ∧
    okVal (mef stTwoF (some 1) (some 2) (some 1)) = some 1 ∧
    (okState (mef stTwoF (some 1) (some 2) (some 1))).map (fun k => k.elive.length)
      = some 1 := by
  decide

/-- C1 (the code evaluated at the failing input).  In the §8 triangle
scenario the deltas hold (`V=3, E=3, F=2`) and the new edge carries
`f1 = f`, `f2 = f'`; but the only live edge referencing the new face `f'`
(face 2) is the chord itself — edges 1 and 2 still carry face 1 in both
slots, so no edge of the `f'` side had its face slot updated. -/
theorem mef_does_not_rewrite_face_slots :
    stTri.vlive.length = 3 ∧ stTri.elive.length = 3 ∧ stTri.flive.length = 2 ∧
    (getE stTri 3).v1 = some 3 ∧ (getE stTri 3).v2 = some 1 ∧
    (getE stTri 3).f1 = some 1 ∧ (getE stTri 3).f2 = some 2 ∧
    stTri.elive.filter (fun x => decide (edgeRefsFace stTri x 2)) = [3] ∧
    (getE stTri 1).f1 = some 1 ∧ (getE stTri 1).f2 = some 1 ∧
    (getE stTri 2).f1 = some 1 ∧ (getE stTri 2).f2 = some 1 := by
  decide

/-- C4 (counterexample).  After `MVSF` then `MEV`, the spur edge has both
face slots on face 1, so the claim's count (a spur counted twice) is 2;
but `getFaceBoundary` visits each edge at most once and returns a
single-element walk. -/
theorem getFaceBoundary_spur_counted_once :
    getFaceBoundary stSpur (some 1) = [1] ∧
    slotRefCount stSpur 1 = 2 ∧
    (getFaceBoundary stSpur (some 1)).length ≠ slotRefCount stSpur 1 := by
  decide

theorem kef_merges_faces_witness :
    ∃ s', kef stTri (some 3) = .ok (1, s') ∧ (3 : Nat) ∉ s'.elive ∧
      s'.elive.length + 1 = stTri.elive.length ∧
      s'.flive.length + 1 = stTri.flive.length ∧
      s'.vlive = stTri.vlive ∧
      (∀ x ∈ s'.elive, getE s' x = kefRewrite 1 2 (getE stTri x)) :=
  kef_merges_faces stTri 3 1 2 (by decide) (by decide) (by decide) (by decide)
    (by decide) (by decide)

/-- The state after `KEF` undoes the closing `MEF` of the triangle. -/
def stTriKef : Kernel := exState (kef stTri (some 3)) stA

theorem mef_kef_round_trip_witness :
    (1 : Nat) = 1 ∧ stTriKef.vlive = stC.vlive ∧ stTriKef.elive = stC.elive ∧
    stTriKef.flive = stC.flive ∧
    (∀ i ∈ stC.vlive, getV stTriKef i = getV stC i) ∧
    (∀ i ∈ stC.elive, getE stTriKef i = getE stC i) ∧
    (∀ i ∈ stC.flive, getF stTriKef i = getF stC i) :=
  mef_kef_round_trip stC 3 1 1 3 1 stTri stTriKef (by decide) (by decide) (by decide)
    (by decide) (by decide) rfl rfl

theorem mev_creates_edge_vertex_witness :
    ∃ s', mev stA (some 1) ⟨1, 0, 0⟩ (some 1) = .ok (stA.next_e_id, s') ∧
      s'.vlive = stA.vlive ++ [stA.next_v_id] ∧
      s'.elive = stA.elive ++ [stA.next_e_id] ∧
      s'.flive = stA.flive ∧
      (getE s' stA.next_e_id).v1 = some 1 ∧
      (getE s' stA.next_e_id).v2 = some stA.next_v_id ∧
      (getE s' stA.next_e_id).f1 = some 1 ∧
      (getE s' stA.next_e_id).f2 = some 1 ∧
      (getV s' stA.next_v_id).coords = ⟨1, 0, 0⟩ :=
  mev_creates_edge_vertex stA 1 1 ⟨1, 0, 0⟩ (by decide) (by decide) (by decide)

end SketchyKernel

namespace SketchyMesh

/-- An invariant-violating mesh: vertex 1's incident edge leads, after one
hop, into a 2-cycle of wing links between edges 2 and 3, neither of which
touches vertex 1, so the unbounded inner navigation loop of
`Vertex::get_incident_edges` never finds an exit. -/
def corruptMesh : Mesh :=
  { vstore := [⟨1, ⟨0, 0, 0⟩, some 1⟩]
    estore := [⟨1, 1, 2, none, none, none, none, none, some 2⟩,
               ⟨2, 5, 6, none, none, none, some 3, none, none⟩,
               ⟨3, 5, 6, none, none, none, some 2, none, none⟩]
    fstore := []
    vlive := [1]
    elive := [1, 2, 3]
    flive := []
    nv := 2
    ne := 4
    nf := 1 }

/-- Between edges 2 and 3 the inner loop cycles forever: it exhausts every
fuel. -/
theorem miInner_cycle :
    ∀ fuel, miInner corruptMesh 1 true fuel (some 2) = none ∧
      miInner corruptMesh 1 true fuel (some 3) = none := by
  intro fuel
  induction fuel with
  | zero => exact ⟨rfl, rfl⟩
  | succ n ih =>
    refine ⟨?_, ?_⟩
    · rw [show miInner corruptMesh 1 true (n + 1) (some 2)
          = miInner corruptMesh 1 true n (some 3) from rfl]
      exact ih.2
    · rw [show miInner corruptMesh 1 true (n + 1) (some 3)
          = miInner corruptMesh 1 true n (some 2) from rfl]
      exact ih.1

/-- C7 (counterexample).  On the invariant-violating mesh `corruptMesh`,
the `Vertex::get_incident_edges` walk of vertex 1 loops forever: it
neither returns to its start nor stops with any value — for every fuel the
fuel runs out (and no error of any kind is produced, the C++ function has
no error path at all). -/
theorem vertex_walk_diverges : miDiverges corruptMesh 1 := by
  intro fuel
  cases fuel with
  | zero => rfl
  | succ n =>
    show miOuter corruptMesh 1 1 (n + 1) [] 1 = none
    simp only [miOuter]
    rw [show (if (getME corruptMesh 1).v1 = 1 then
          miInner corruptMesh 1 true n (getME corruptMesh 1).right_next
        else miInner corruptMesh 1 false n (getME corruptMesh 1).left_next)
        = miInner corruptMesh 1 true n (some 2) from rfl,
      (miInner_cycle n).1]

/-! ### Geometry: `Vec3::length` and `Vec3::normalized` (real model) -/

theorem sumsq_nonneg (v : RVec3) : 0 ≤ v.x * v.x + v.y * v.y + v.z * v.z := by
  nlinarith [mul_self_nonneg v.x, mul_self_nonneg v.y, mul_self_nonneg v.z]

theorem length_nonneg (v : RVec3) : 0 ≤ v.length := Real.sqrt_nonneg _

theorem length_eq_zero_iff (v : RVec3) : v.length = 0 ↔ v = ⟨0, 0, 0⟩ := by
  constructor
  · intro h
    have hS : v.x * v.x + v.y * v.y + v.z * v.z = 0 := by
      have hms := Real.mul_self_sqrt (sumsq_nonneg v)
      rw [show Real.sqrt (v.x * v.x + v.y * v.y + v.z * v.z) = v.length from rfl, h] at hms
      linarith
    have hx : v.x = 0 := mul_self_eq_zero.mp (by
      nlinarith [mul_self_nonneg v.x, mul_self_nonneg v.y, mul_self_nonneg v.z])
    have hy : v.y = 0 := mul_self_eq_zero.mp (by
      nlinarith [mul_self_nonneg v.x, mul_self_nonneg v.y, mul_self_nonneg v.z])
    have hzz : v.z = 0 := mul_self_eq_zero.mp (by
      nlinarith [mul_self_nonneg v.x, mul_self_nonneg v.y, mul_self_nonneg v.z])
    cases v
    simp_all
  · rintro rfl
    show Real.sqrt (0 * 0 + 0 * 0 + 0 * 0) = 0
    norm_num

/-- A vector of positive length normalizes to a unit vector. -/
theorem normalized_unit (v : RVec3) (h : 0 < v.length) : v.normalized.length = 1 := by
  have hS0 : 0 ≤ v.x * v.x + v.y * v.y + v.z * v.z := sumsq_nonneg v
  have hlne : v.length ≠ 0 := ne_of_gt h
  have hsq : v.length * v.length = v.x * v.x + v.y * v.y + v.z * v.z :=
    Real.mul_self_sqrt hS0
  unfold RVec3.normalized
  rw [if_pos h]
  show Real.sqrt (v.x / v.length * (v.x / v.length) + v.y / v.length * (v.y / v.length) +
    v.z / v.length * (v.z / v.length)) = 1
  have harg : v.x / v.length * (v.x / v.length) + v.y / v.length * (v.y / v.length) +
      v.z / v.length * (v.z / v.length) = 1 := by
    field_simp
    linarith [hsq]
  rw [harg, Real.sqrt_one]

/-- Normalizing a positive multiple of the z axis gives `(0, 0, 1)`. -/
theorem normalized_z_axis (c : ℝ) (hc : 0 < c) :
    (RVec3.mk 0 0 c).normalized = ⟨0, 0, 1⟩ := by
  have hl : (RVec3.mk 0 0 c).length = c := by
    show Real.sqrt (0 * 0 + 0 * 0 + c * c) = c
    rw [show (0 : ℝ) * 0 + 0 * 0 + c * c = c * c by ring, Real.sqrt_mul_self hc.le]
  unfold RVec3.normalized
  rw [hl, if_pos hc]
  have hcc : c / c = 1 := div_self (ne_of_gt hc)
  simp [hcc]

/-- C10.  `Vec3::normalized` is total: when the length is positive it
returns the vector divided by its length (a unit vector); the guard's
`else` branch covers exactly the zero-length case — a real-valued length
is never negative — and returns the zero vector rather than dividing by
zero. -/
theorem normalized_total (v : RVec3) :
    (0 < v.length ∧ v.normalized = ⟨v.x / v.length, v.y / v.length, v.z / v.length⟩ ∧
      v.normalized.length = 1) ∨
    (v.length = 0 ∧ v.normalized = ⟨0, 0, 0⟩) := by
  by_cases h : 0 < v.length
  · refine Or.inl ⟨h, ?_, normalized_unit v h⟩
    unfold RVec3.normalized
    rw [if_pos h]
  · refine Or.inr ⟨le_antisymm (not_lt.mp h) (length_nonneg v), ?_⟩
    unfold RVec3.normalized
    rw [if_neg h]

/-! ### Newell's method on planar input -/

theorem map_congr_mem {α β : Type} (f g : α → β) :
    ∀ l : List α, (∀ x ∈ l, f x = g x) → l.map f = l.map g := by
  intro l
  induction l with
  | nil => intro _; rfl
  | cons a t ih =>
    intro h
    simp only [List.map_cons, h a (List.mem_cons_self a t),
      ih (fun x hx => h x (List.mem_cons_of_mem a hx))]

theorem listRatCastSum : ∀ l : List ℚ, ((l.map (fun q : ℚ => (q : ℝ))).sum) = ((l.sum : ℚ) : ℝ) := by
  intro l
  induction l with
  | nil => simp
  | cons a t ih =>
    simp only [List.map_cons, List.sum_cons, ih]
    push_cast
    ring

theorem sum_map_add {α : Type} (f g : α → ℚ) :
    ∀ l : List α, (l.map (fun x => f x + g x)).sum = (l.map f).sum + (l.map g).sum := by
  intro l
  induction l with
  | nil => simp
  | cons a t ih =>
    simp only [List.map_cons, List.sum_cons, ih]
    ring

/-- The cyclic telescoping identity: summing `g a − g b` over consecutive
cyclic pairs gives zero. -/
theorem sum_zip_rotate_sub (g : Vec3 → ℚ) (ps : List Vec3) :
    ((ps.zip (ps.rotate 1)).map (fun ab => g ab.1 - g ab.2)).sum = 0 := by
  have hsub : ∀ L : List (Vec3 × Vec3),
      (L.map (fun ab => g ab.1 - g ab.2)).sum
        = (L.map (fun ab => g ab.1)).sum - (L.map (fun ab => g ab.2)).sum := by
    intro L
    induction L with
    | nil => simp
    | cons a t ih =>
      simp only [List.map_cons, List.sum_cons, ih]
      ring
  rw [hsub]
  have h1 : ((ps.zip (ps.rotate 1)).map (fun ab : Vec3 × Vec3 => g ab.1)).sum
      = (ps.map g).sum := by
    rw [show (fun ab : Vec3 × Vec3 => g ab.1) = (g ∘ Prod.fst) from rfl, ← List.map_map,
      List.map_fst_zip _ _ (by rw [List.length_rotate])]
  have h2 : ((ps.zip (ps.rotate 1)).map (fun ab : Vec3 × Vec3 => g ab.2)).sum
      = (ps.map g).sum := by
    rw [show (fun ab : Vec3 × Vec3 => g ab.2) = (g ∘ Prod.snd) from rfl, ← List.map_map,
      List.map_snd_zip _ _ (by rw [List.length_rotate])]
    exact ((List.rotate_perm ps 1).map g).sum_eq
  rw [h1, h2, sub_self]

/-- On a polygon drawn in the XY plane, the Newell vector is
`(0, 0, shoelace)`. -/
theorem newell_planar (ps : List Vec3) (hz : ∀ p ∈ ps, p.z = 0) :
    newell (ps.map toR) = ⟨0, 0, ((shoelace ps : ℚ) : ℝ)⟩ := by
  have hzip : (ps.map toR).zip ((ps.map toR).rotate 1)
      = (ps.zip (ps.rotate 1)).map (Prod.map toR toR) := by
    rw [← List.map_rotate, List.zip_map]
  unfold newell
  rw [hzip]
  have hx0 : (((ps.zip (ps.rotate 1)).map (Prod.map toR toR)).map
      (fun ab => (ab.1.y - ab.2.y) * (ab.1.z + ab.2.z))).sum = 0 := by
    rw [List.map_map]
    apply List.sum_eq_zero
    intro t ht
    obtain ⟨⟨a, b⟩, hab, rfl⟩ := List.mem_map.mp ht
    obtain ⟨ha, hb⟩ := List.of_mem_zip hab
    have hza : a.z = 0 := hz _ ha
    have hzb : b.z = 0 := hz _ (List.mem_rotate.mp hb)
    simp [Prod.map, toR, hza, hzb]
  have hy0 : (((ps.zip (ps.rotate 1)).map (Prod.map toR toR)).map
      (fun ab => (ab.1.z - ab.2.z) * (ab.1.x + ab.2.x))).sum = 0 := by
    rw [List.map_map]
    apply List.sum_eq_zero
    intro t ht
    obtain ⟨⟨a, b⟩, hab, rfl⟩ := List.mem_map.mp ht
    obtain ⟨ha, hb⟩ := List.of_mem_zip hab
    have hza : a.z = 0 := hz _ ha
    have hzb : b.z = 0 := hz _ (List.mem_rotate.mp hb)
    simp [Prod.map, toR, hza, hzb]
  have hzc : (((ps.zip (ps.rotate 1)).map (Prod.map toR toR)).map
      (fun ab => (ab.1.x - ab.2.x) * (ab.1.y + ab.2.y))).sum = ((shoelace ps : ℚ) : ℝ) := by
    rw [List.map_map]
    rw [map_congr_mem _
      (fun ab : Vec3 × Vec3 => (((ab.1.x - ab.2.x) * (ab.1.y + ab.2.y) : ℚ) : ℝ))
      _ (by
        intro ab _
        obtain ⟨a, b⟩ := ab
        simp only [Function.comp, Prod.map, toR]
        push_cast
        ring)]
    rw [show (fun ab : Vec3 × Vec3 => (((ab.1.x - ab.2.x) * (ab.1.y + ab.2.y) : ℚ) : ℝ))
        = ((fun q : ℚ => (q : ℝ)) ∘ (fun ab : Vec3 × Vec3 => (ab.1.x - ab.2.x) * (ab.1.y + ab.2.y)))
        from rfl, ← List.map_map, listRatCastSum _]
    congr 1
    rw [map_congr_mem _
      (fun ab : Vec3 × Vec3 => (ab.1.x * ab.2.y - ab.2.x * ab.1.y)
        + (ab.1.x * ab.1.y - ab.2.x * ab.2.y)) _ (by
        intro ab _
        ring)]
    rw [sum_map_add, sum_zip_rotate_sub (fun p => p.x * p.y)]
    unfold shoelace
    ring
  show RVec3.mk _ _ _ = _
  rw [hx0, hy0, hzc]

/-- C8 (amended).  `Face::compute_normal`: a degenerate boundary walk
(fewer than three vertices — including the zero-length walk) records the
default normal `(0, 0, 1)`, not the zero vector; when the Newell vector of
the walk is nonzero the recorded normal has unit length; and for a planar
polygon wound CCW in the XY plane (positive shoelace area) the recorded
normal is exactly `(0, 0, 1)` in real arithmetic — hence within `1e-9` in
doubles. -/
theorem compute_normal_characterization :
    (∀ (m : Mesh) (f : Nat), (facePositions m f).length < 3 →
      compute_normal m f = ⟨0, 0, 1⟩) ∧
    (∀ (m : Mesh) (f : Nat), ¬ (facePositions m f).length < 3 →
      newell ((facePositions m f).map toR) ≠ ⟨0, 0, 0⟩ →
      (compute_normal m f).length = 1) ∧
    (∀ (m : Mesh) (f : Nat), ¬ (facePositions m f).length < 3 →
      (∀ p ∈ facePositions m f, p.z = 0) →
      0 < shoelace (facePositions m f) →
      compute_normal m f = ⟨0, 0, 1⟩) := by
  refine ⟨?_, ?_, ?_⟩
  · intro m f hlen
    simp only [compute_normal]
    rw [if_pos hlen]
  · intro m f hlen hnz
    simp only [compute_normal]
    rw [if_neg hlen]
    apply normalized_unit
    rcases lt_or_eq_of_le (length_nonneg (newell ((facePositions m f).map toR))) with h | h
    · exact h
    · exact absurd ((length_eq_zero_iff _).mp h.symm) hnz
  · intro m f hlen hz hsh
    simp only [compute_normal]
    rw [if_neg hlen, newell_planar _ hz]
    exact normalized_z_axis _ (by exact_mod_cast hsh)

/-- A mesh holding one face whose boundary edge was never set: its
boundary walk is zero-length. -/
def degMesh : Mesh :=
  { vstore := []
    estore := []
    fstore := [⟨1, none⟩]
    vlive := []
    elive := []
    flive := [1]
    nv := 1
    ne := 1
    nf := 2 }

/-- C8 (counterexample).  For a face whose boundary walk is zero-length,
`Face::compute_normal` records the default `(0, 0, 1)`, not the sentinel
zero vector the claim names. -/
theorem compute_normal_degenerate_not_zero :
    compute_normal degMesh 1 = ⟨0, 0, 1⟩ ∧ (⟨0, 0, 1⟩ : RVec3) ≠ ⟨0, 0, 0⟩ := by
  constructor
  · rfl
  · intro h
    have h1 : (1 : ℝ) = 0 := congrArg RVec3.z h
    norm_num at h1

def mexState (x : Except SketchyKernel.KErr (Nat × Mesh)) (d : Mesh) : Mesh :=
  match x with
  | .ok (_, m) => m
  | .error _ => d

/-- The four corners of the unit square, as added by `Mesh::add_vertex`. -/
def sqBase : Mesh :=
  (add_vertex (add_vertex (add_vertex (add_vertex emptyMesh
    ⟨0, 0, 0⟩).2 ⟨1, 0, 0⟩).2 ⟨1, 1, 0⟩).2 ⟨0, 1, 0⟩).2

/-- The unit square in the XY plane, CCW, built through `Mesh::add_face`
(scenario 5 of the spec's §8). -/
def sqMesh : Mesh :=
  mexState (add_face sqBase [1, 2, 3, 4]) sqBase

/-- The triangle `1-2-3` plus a spare vertex `4`, the base state for two
`add_face` calls that share the edge between vertices `1` and `2`. -/
def triBase : Mesh :=
  (add_vertex (add_vertex (add_vertex (add_vertex emptyMesh
    ⟨0, 0, 0⟩).2 ⟨1, 0, 0⟩).2 ⟨0, 1, 0⟩).2 ⟨1, 1, 0⟩).2

/-- `triBase` after `add_face([1,2,3])`: one face, three fresh edges. -/
def mA : Mesh := mexState (add_face triBase [1, 2, 3]) triBase

/-- The edge list collected by the second call `add_face([2,1,4])` on
`mA`: its first entry reuses edge `1`. -/
def cesB : List Nat :=
  match collectFaceEdges mA [2, 1, 4] with
  | .ok (l, _) => l
  | .error _ => []

/-- The mesh state after the collection loop of `add_face([2,1,4])`. -/
def m1B : Mesh :=
  match collectFaceEdges mA [2, 1, 4] with
  | .ok (_, mm) => mm
  | .error _ => mA

/-- `mA` after the full second call `add_face([2,1,4])`. -/
def mB : Mesh := mexState (add_face mA [2, 1, 4]) mA

/-- Edge lookups see only the edge store. -/
theorem getME_congr (m1 m2 : Mesh) (j : Nat) (h : m1.estore = m2.estore) :
    getME m1 j = getME m2 j := by
  unfold getME
  rw [h]

/-- A lookup behind an id-preserving in-place mutation of another edge is
unchanged (Mesh-variant twin of `getE_updE_ne`). -/
theorem getME_updME_ne (m : Mesh) (i j : Nat) (g : MEdgeRec → MEdgeRec)
    (hg : ∀ r, (g r).id = r.id) (hij : i ≠ j) :
    getME (updME m i g) j = getME m j := by
  unfold getME updME
  rw [find_map_invar (fun r => if r.id = i then g r else r) (fun r => r.id == j)
    (fun x => by by_cases hx : x.id = i <;> simp [hx, hg])]
  cases hfind : m.estore.find? (fun r => r.id == j) with
  | none => rfl
  | some r =>
    have hr : r.id = j := by
      have := List.find?_some hfind
      simpa using this
    have hne : r.id ≠ i := by rw [hr]; exact fun h => hij h.symm
    simp [hne]

/-- A lookup of a present edge after its own in-place mutation sees the
mutation (Mesh-variant twin of `getE_updE_self`). -/
theorem getME_updME_self (m : Mesh) (j : Nat) (g : MEdgeRec → MEdgeRec)
    (hg : ∀ r, (g r).id = r.id) (hpres : ∃ r ∈ m.estore, r.id = j) :
    getME (updME m j g) j = g (getME m j) := by
  unfold getME updME
  rw [find_map_invar (fun r => if r.id = j then g r else r) (fun r => r.id == j)
    (fun x => by by_cases hx : x.id = j <;> simp [hx, hg])]
  obtain ⟨r0, hr0, hid0⟩ := hpres
  have hsome := find_isSome_of_exists (fun r => r.id == j) m.estore ⟨r0, hr0, by simp [hid0]⟩
  cases hfind : m.estore.find? (fun r => r.id == j) with
  | none => rw [hfind] at hsome; simp at hsome
  | some r =>
    have hr : r.id = j := by
      have := List.find?_some hfind
      simpa using this
    simp [hr]

/-- Appending edge records with other ids is invisible to a lookup. -/
theorem getME_append (m m' : Mesh) (ext : List MEdgeRec) (x : Nat)
    (hs : m'.estore = m.estore ++ ext) (hext : ∀ r ∈ ext, r.id ≠ x) :
    getME m' x = getME m x := by
  unfold getME
  rw [hs]
  cases hfind : m.estore.find? (fun r => r.id == x) with
  | some r =>
    rw [find_append_some (fun r => r.id == x) m.estore ext (by rw [hfind]; rfl), hfind]
  | none =>
    have hext2 : List.find? (fun r => r.id == x) ext = none :=
      List.find?_eq_none.mpr (fun r hr => by simp [hext r hr])
    rw [find_append_none _ _ _ hfind, hext2]

/-- Presence of an edge id in the store survives an id-preserving in-place
mutation. -/
theorem updME_presence (m : Mesh) (i e : Nat) (g : MEdgeRec → MEdgeRec)
    (hg : ∀ r, (g r).id = r.id) (hp : ∃ r ∈ m.estore, r.id = e) :
    ∃ r ∈ (updME m i g).estore, r.id = e := by
  unfold updME
  exact SketchyKernel.presence_map (fun r => r.id) (fun r => if r.id = i then g r else r)
    (fun x => by by_cases hx : x.id = i <;> simp [hx, hg]) m.estore e hp

theorem addEdgeU_estore (m : Mesh) (v eid : Nat) : (addEdgeU m v eid).estore = m.estore := by
  unfold addEdgeU; split <;> rfl

theorem addEdgeU_elive (m : Mesh) (v eid : Nat) : (addEdgeU m v eid).elive = m.elive := by
  unfold addEdgeU; split <;> rfl

theorem addEdgeU_ne (m : Mesh) (v eid : Nat) : (addEdgeU m v eid).ne = m.ne := by
  unfold addEdgeU; split <;> rfl

theorem addEdgeU_flive (m : Mesh) (v eid : Nat) : (addEdgeU m v eid).flive = m.flive := by
  unfold addEdgeU; split <;> rfl

theorem addEdgeU_fstore (m : Mesh) (v eid : Nat) : (addEdgeU m v eid).fstore = m.fstore := by
  unfold addEdgeU; split <;> rfl

theorem addEdgeU_nf (m : Mesh) (v eid : Nat) : (addEdgeU m v eid).nf = m.nf := by
  unfold addEdgeU; split <;> rfl

/-- Shape of a successful `Mesh::add_edge`: the new edge carries the next
id, face/wing slots start null, and the face data is untouched. -/
theorem add_edge_shape (m : Mesh) (a b e0 : Nat) (mnew : Mesh)
    (hadd : add_edge m a b = .ok (e0, mnew)) :
    e0 = m.ne ∧ mnew.elive = m.elive ++ [m.ne] ∧ mnew.ne = m.ne + 1 ∧
    mnew.estore = m.estore ++ [⟨m.ne, a, b, none, none, none, none, none, none⟩] ∧
    mnew.flive = m.flive ∧ mnew.fstore = m.fstore ∧ mnew.nf = m.nf := by
  unfold add_edge at hadd
  by_cases hab : a = b
  · rw [if_pos hab] at hadd
    exact absurd hadd (by simp)
  · rw [if_neg hab, Except.ok.injEq, Prod.mk.injEq] at hadd
    obtain ⟨he0, hm⟩ := hadd
    subst hm
    refine ⟨he0.symm, ?_, ?_, ?_, ?_, ?_, ?_⟩
    · rw [addEdgeU_elive, addEdgeU_elive]; rfl
    · rw [addEdgeU_ne, addEdgeU_ne]; rfl
    · rw [addEdgeU_estore, addEdgeU_estore]; rfl
    · rw [addEdgeU_flive, addEdgeU_flive]; rfl
    · rw [addEdgeU_fstore, addEdgeU_fstore]; rfl
    · rw [addEdgeU_nf, addEdgeU_nf]; rfl

/-- The first-match edge search of `add_face` is stable under pushing a
fresh edge record: the fresh id is above every live id, so an earlier
match keeps matching first. -/
theorem findEdgeFor_stable (m mnew : Mesh) (a b e : Nat)
    (hlt : EliveLtNe m)
    (helive : mnew.elive = m.elive ++ [m.ne])
    (hestore : ∃ er : MEdgeRec, mnew.estore = m.estore ++ [er] ∧ er.id = m.ne)
    (hfind : findEdgeFor m a b = some e) :
    findEdgeFor mnew a b = some e := by
  obtain ⟨er, hes, hid⟩ := hestore
  have hME : ∀ x ∈ m.elive, getME mnew x = getME m x := by
    intro x hx
    refine getME_append m mnew [er] x hes ?_
    intro r hr
    have hrid : r = er := by simpa using hr
    subst hrid
    rw [hid]
    have := hlt x hx
    omega
  unfold findEdgeFor at hfind ⊢
  rw [helive]
  have hfind2 : m.elive.find? (fun x =>
      let r := getME mnew x
      (r.v1 == a && r.v2 == b) || (r.v1 == b && r.v2 == a)) = some e := by
    rw [find_congr _ _ m.elive (fun x hx => by rw [hME x hx])]
    exact hfind
  rw [find_append_some _ _ _ (by rw [hfind2]; rfl)]
  exact hfind2

/-- Behaviour of the edge-collection loop of `Mesh::add_face`: results are
accumulated in order, the mesh only grows (by edges with fresh ids), the
face data is untouched, and whenever a pair already has a matching live
edge in the starting mesh the output at that position is exactly that
edge. -/
theorem collectGo_spec :
    ∀ (prs : List (Nat × Nat)) (m : Mesh) (acc out : List Nat) (mfin : Mesh),
      collectGo m prs acc = .ok (out, mfin) → EliveLtNe m →
      ∃ produced eext,
        out = acc.reverse ++ produced ∧
        m.ne ≤ mfin.ne ∧
        mfin.estore = m.estore ++ eext ∧
        (∀ r ∈ eext, m.ne ≤ r.id) ∧
        mfin.flive = m.flive ∧ mfin.fstore = m.fstore ∧ mfin.nf = m.nf ∧
        EliveLtNe mfin ∧
        (∀ i a b e, prs.get? i = some (a, b) → findEdgeFor m a b = some e →
          produced.get? i = some e) := by
  intro prs
  induction prs with
  | nil =>
    intro m acc out mfin h hlt
    obtain ⟨h1, h2⟩ : acc.reverse = out ∧ m = mfin := by simpa [collectGo] using h
    subst h1
    subst h2
    refine ⟨[], [], by simp, Nat.le_refl _, by simp, ?_, rfl, rfl, rfl, hlt, ?_⟩
    · intro r hr
      simp at hr
    · intro i a b e hi
      simp at hi
  | cons p rest ih =>
    intro m acc out mfin h hlt
    obtain ⟨a, b⟩ := p
    simp only [collectGo] at h
    cases hfind : findEdgeFor m a b with
    | some e0 =>
      rw [hfind] at h
      obtain ⟨produced, eext, hout, hne, hestore, heext, hflive, hfstore, hnf, hltf, hidx⟩ :=
        ih m (e0 :: acc) out mfin h hlt
      refine ⟨e0 :: produced, eext, ?_, hne, hestore, heext, hflive, hfstore, hnf, hltf, ?_⟩
      · rw [hout, List.reverse_cons, List.append_assoc]
        rfl
      · intro i a' b' e hget hfind'
        cases i with
        | zero =>
          have hp : (a, b) = (a', b') := by simpa using hget
          injection hp with h1 h2
          subst h1
          subst h2
          rw [hfind'] at hfind
          have he : e = e0 := by simpa using hfind
          subst he
          rfl
        | succ i =>
          rw [List.get?_cons_succ] at hget
          exact hidx i a' b' e hget hfind'
    | none =>
      rw [hfind] at h
      cases hadd : add_edge m a b with
      | error err =>
        rw [hadd] at h
        exact absurd h (by simp)
      | ok pr =>
        obtain ⟨e0, mnew⟩ := pr
        rw [hadd] at h
        replace h : collectGo mnew rest (e0 :: acc) = .ok (out, mfin) := h
        obtain ⟨he0, helive1, hne1, hestore1, hflive1, hfstore1, hnf1⟩ :=
          add_edge_shape m a b e0 mnew hadd
        have hlt1 : EliveLtNe mnew := by
          intro x hx
          rw [helive1] at hx
          rw [hne1]
          rcases List.mem_append.mp hx with hx | hx
          · exact Nat.lt_succ_of_lt (hlt x hx)
          · have : x = m.ne := by simpa using hx
            omega
        obtain ⟨produced, eext, hout, hne2, hestore2, heext2, hflive2, hfstore2, hnf2, hltf, hidx⟩ :=
          ih mnew (e0 :: acc) out mfin h hlt1
        refine ⟨e0 :: produced,
          (⟨m.ne, a, b, none, none, none, none, none, none⟩ : MEdgeRec) :: eext,
          ?_, ?_, ?_, ?_, ?_, ?_, ?_, hltf, ?_⟩
        · rw [hout, List.reverse_cons, List.append_assoc]
          rfl
        · rw [hne1] at hne2
          omega
        · rw [hestore2, hestore1, List.append_assoc]
          rfl
        · intro r hr
          rcases List.mem_cons.mp hr with hr | hr
          · subst hr
            exact Nat.le_refl _
          · have := heext2 r hr
            rw [hne1] at this
            omega
        · rw [hflive2, hflive1]
        · rw [hfstore2, hfstore1]
        · rw [hnf2, hnf1]
        · intro i a' b' e hget hfind'
          cases i with
          | zero =>
            have hp : (a, b) = (a', b') := by simpa using hget
            injection hp with h1 h2
            subst h1
            subst h2
            rw [hfind] at hfind'
            exact absurd hfind' (by simp)
          | succ i =>
            rw [List.get?_cons_succ] at hget
            exact hidx i a' b' e hget
              (findEdgeFor_stable m mnew a' b' e hlt helive1 ⟨_, hestore1, rfl⟩ hfind')

/-- Wiring iterations at positions whose collected edge is not `e` do not
change `e`'s record. -/
theorem wire_untouched (fid : Nat) (ces : List Nat) (e : Nat) :
    ∀ (L : List Nat) (mm : Mesh), (∀ j ∈ L, ces.getD j 0 ≠ e) →
      getME (List.foldl (wireStep fid ces) mm L) e = getME mm e := by
  intro L
  induction L with
  | nil =>
    intro mm _
    rfl
  | cons j t ih =>
    intro mm hL
    rw [List.foldl_cons, ih (wireStep fid ces mm j) (fun x hx => hL x (List.mem_cons_of_mem _ hx))]
    have hj : ces.getD j 0 ≠ e := hL j (List.mem_cons_self _ _)
    unfold wireStep
    split
    · exact getME_updME_ne mm _ e _ (fun r => rfl) hj
    · exact getME_updME_ne mm _ e _ (fun r => rfl) hj

/-- Presence of an edge id survives any run of wiring iterations. -/
theorem wire_presence (fid : Nat) (ces : List Nat) (e : Nat) :
    ∀ (L : List Nat) (mm : Mesh), (∃ r ∈ mm.estore, r.id = e) →
      ∃ r ∈ (List.foldl (wireStep fid ces) mm L).estore, r.id = e := by
  intro L
  induction L with
  | nil =>
    intro mm hp
    exact hp
  | cons j t ih =>
    intro mm hp
    rw [List.foldl_cons]
    refine ih (wireStep fid ces mm j) ?_
    unfold wireStep
    split
    · exact updME_presence mm _ e _ (fun r => rfl) hp
    · exact updME_presence mm _ e _ (fun r => rfl) hp

/-- Splitting the index range of the wiring loop at one position. -/
theorem range_split (n i : Nat) (hi : i < n) :
    List.range n = List.range' 0 i ++ i :: List.range' (i + 1) (n - i - 1) := by
  have h1 := List.range'_append_1 0 i (n - i)
  rw [Nat.zero_add] at h1
  have hn : n - i + i = n := by omega
  rw [hn] at h1
  rw [List.range_eq_range', ← h1]
  have hni : n - i = n - i - 1 + 1 := by omega
  rw [hni, List.range'_succ]
  simp

/-- The wiring loop of `Mesh::add_face`, seen from one edge `e` that
occurs at exactly one position of the collected list: the new face is
recorded in `e`'s left slot when that slot was free, else in its right
slot, and the other face slot is untouched. -/
theorem wireFace_slot_rule (m2 : Mesh) (fid : Nat) (ces : List Nat) (i e : Nat)
    (hget : ces.get? i = some e)
    (hone : ∀ j < ces.length, j ≠ i → ces.getD j 0 ≠ e)
    (hpres : ∃ r ∈ m2.estore, r.id = e) :
    ((getME m2 e).left_face = none →
        (getME (wireFace m2 fid ces) e).left_face = some fid ∧
        (getME (wireFace m2 fid ces) e).right_face = (getME m2 e).right_face) ∧
    ((getME m2 e).left_face ≠ none →
        (getME (wireFace m2 fid ces) e).right_face = some fid ∧
        (getME (wireFace m2 fid ces) e).left_face = (getME m2 e).left_face) := by
  have hi : i < ces.length := by
    by_contra hcon
    rw [List.get?_eq_none.mpr (Nat.le_of_not_lt hcon)] at hget
    exact absurd hget (by simp)
  have hcur : ces.getD i 0 = e := by
    rw [List.getD_eq_getElem?_getD, ← List.get?_eq_getElem?, hget]
    rfl
  have hunt1 : ∀ j ∈ List.range' 0 i, ces.getD j 0 ≠ e := by
    intro j hj
    obtain ⟨k, hk, hjk⟩ := List.mem_range'.mp hj
    exact hone j (by omega) (by omega)
  have hunt2 : ∀ j ∈ List.range' (i + 1) (ces.length - i - 1), ces.getD j 0 ≠ e := by
    intro j hj
    obtain ⟨k, hk, hjk⟩ := List.mem_range'.mp hj
    exact hone j (by omega) (by omega)
  unfold wireFace
  rw [range_split ces.length i hi, List.foldl_append, List.foldl_cons]
  have hmid : getME (List.foldl (wireStep fid ces) m2 (List.range' 0 i)) e = getME m2 e :=
    wire_untouched fid ces e _ m2 hunt1
  set mmid := List.foldl (wireStep fid ces) m2 (List.range' 0 i) with hmmid
  have hpresm : ∃ r ∈ mmid.estore, r.id = e := wire_presence fid ces e _ m2 hpres
  constructor
  · intro hlf
    have hcond : (getME mmid (ces.getD i 0)).left_face = none := by
      rw [hcur, hmid]
      exact hlf
    have hstep : wireStep fid ces mmid i
        = updME mmid e (fun r =>
            { r with left_face := some fid,
                     left_next := some (ces.getD ((i + 1) % ces.length) 0),
                     left_prev := some (ces.getD ((i + ces.length - 1) % ces.length) 0) }) := by
      unfold wireStep
      rw [if_pos hcond, hcur]
    rw [hstep, wire_untouched fid ces e _ _ hunt2,
      getME_updME_self mmid e (fun r =>
        { r with left_face := some fid,
                 left_next := some (ces.getD ((i + 1) % ces.length) 0),
                 left_prev := some (ces.getD ((i + ces.length - 1) % ces.length) 0) })
        (fun r => rfl) hpresm, hmid]
    exact ⟨rfl, rfl⟩
  · intro hlf
    have hcond : ¬ (getME mmid (ces.getD i 0)).left_face = none := by
      rw [hcur, hmid]
      exact hlf
    have hstep : wireStep fid ces mmid i
        = updME mmid e (fun r =>
            { r with right_face := some fid,
                     right_next := some (ces.getD ((i + 1) % ces.length) 0),
                     right_prev := some (ces.getD ((i + ces.length - 1) % ces.length) 0) }) := by
      unfold wireStep
      rw [if_neg hcond, hcur]
    rw [hstep, wire_untouched fid ces e _ _ hunt2,
      getME_updME_self mmid e (fun r =>
        { r with right_face := some fid,
                 right_next := some (ces.getD ((i + 1) % ces.length) 0),
                 right_prev := some (ces.getD ((i + ces.length - 1) % ces.length) 0) })
        (fun r => rfl) hpresm, hmid]
    exact ⟨rfl, rfl⟩

/-- C9.  When a consecutive vertex pair of a `Mesh::add_face` call already
has a live edge in the mesh (in either endpoint order), `add_face` reuses
that edge — the collected list carries the existing id at that position
and no duplicate is created — and records the new face in the edge's
first free face slot: in the left slot when it was null (right slot
untouched), else in the right slot (left slot untouched). -/
theorem add_face_reuses_existing_edges (m : Mesh) (verts : List Nat)
    (i a b e fid : Nat) (ces : List Nat) (m1 mfin : Mesh)
    (hlt : EliveLtNe m)
    (hpres : ∃ r ∈ m.estore, r.id = e)
    (hpair : (cyclePairs verts).get? i = some (a, b))
    (hfind : findEdgeFor m a b = some e)
    (hcollect : collectFaceEdges m verts = .ok (ces, m1))
    (hadd : add_face m verts = .ok (fid, mfin))
    (hone : ∀ j < ces.length, j ≠ i → ces.getD j 0 ≠ e) :
    ces.get? i = some e ∧ e ∈ m.elive ∧
    ((getME m e).left_face = none →
        (getME mfin e).left_face = some fid ∧
        (getME mfin e).right_face = (getME m e).right_face) ∧
    ((getME m e).left_face ≠ none →
        (getME mfin e).right_face = some fid ∧
        (getME mfin e).left_face = (getME m e).left_face) := by
  unfold add_face at hadd
  by_cases hlen : verts.length < 3
  · rw [if_pos hlen] at hadd
    exact absurd hadd (by simp)
  rw [if_neg hlen, hcollect] at hadd
  replace hadd : (Except.ok (m1.nf, wireFace (facePush m1 ces) m1.nf ces)
      : Except SketchyKernel.KErr (Nat × Mesh)) = .ok (fid, mfin) := hadd
  rw [Except.ok.injEq, Prod.mk.injEq] at hadd
  obtain ⟨hfid, hmfin⟩ := hadd
  obtain ⟨produced, eext, hout, _hne, hestore1, heext, _hfl, _hfs, _hnf, _hltf, hidx⟩ :=
    collectGo_spec (cyclePairs verts) m [] ces m1 hcollect hlt
  have hces : ces = produced := by simpa using hout
  subst hces
  have hget : ces.get? i = some e := hidx i a b e hpair hfind
  have hmem : e ∈ m.elive := by
    unfold findEdgeFor at hfind
    exact List.mem_of_find?_eq_some hfind
  have helt : e < m.ne := hlt e hmem
  have hm1 : getME m1 e = getME m e :=
    getME_append m m1 eext e hestore1 (fun r hr => by have := heext r hr; omega)
  have hm2 : getME (facePush m1 ces) e = getME m1 e := rfl
  have hpres2 : ∃ r ∈ (facePush m1 ces).estore, r.id = e := by
    show ∃ r ∈ m1.estore, r.id = e
    rw [hestore1]
    obtain ⟨r0, hr0, hid0⟩ := hpres
    exact ⟨r0, List.mem_append_left _ hr0, hid0⟩
  have hrule := wireFace_slot_rule (facePush m1 ces) m1.nf ces i e hget hone hpres2
  subst hmfin
  subst hfid
  refine ⟨hget, hmem, ?_, ?_⟩
  · intro hlf
    have hr := hrule.1 (by rw [hm2, hm1]; exact hlf)
    rw [hm2, hm1] at hr
    exact hr
  · intro hlf
    have hr := hrule.2 (by rw [hm2, hm1]; exact hlf)
    rw [hm2, hm1] at hr
    exact hr

theorem add_face_reuses_existing_edges_witness :
    cesB.get? 0 = some 1 ∧ (1 : Nat) ∈ mA.elive ∧
    (getME mB 1).right_face = some 2 ∧ (getME mB 1).left_face = some 1 := by
  have h := add_face_reuses_existing_edges mA [2, 1, 4] 0 2 1 1 2 cesB m1B mB
    (by decide) (by decide) (by decide) (by decide) rfl rfl (by decide)
  refine ⟨h.1, h.2.1, (h.2.2.2 (by decide)).1, ?_⟩
  rw [(h.2.2.2 (by decide)).2]
  decide

theorem compute_normal_characterization_witness :
    compute_normal sqMesh 1 = ⟨0, 0, 1⟩ := by
  have hpos : facePositions sqMesh 1
      = [⟨0, 0, 0⟩, ⟨1, 0, 0⟩, ⟨1, 1, 0⟩, ⟨0, 1, 0⟩] := by decide
  refine compute_normal_characterization.2.2 sqMesh 1 (by decide) (by decide) ?_
  rw [hpos]
  show (0 : ℚ) < shoelace [⟨0, 0, 0⟩, ⟨1, 0, 0⟩, ⟨1, 1, 0⟩, ⟨0, 1, 0⟩]
  norm_num [shoelace, List.rotate, List.zip, List.zipWith]

end SketchyMesh
